import Mathlib

/-!
Verification development for the repren batch text-refactoring engine
(src/repren/repren.py).  The Python source is shallowly embedded here:

* Bytes are modelled as natural numbers (`Byte := Nat`); only equality of
  bytes matters for the matching engine, so this is faithful.
* Compiled regexes are modelled by literal byte-string patterns, which is the
  exact class produced by `parse_patterns` in literal mode (`re.escape`
  makes every metacharacter match itself).  `regex.finditer` for a literal
  pattern is the scan implemented by `finditer_aux` below: left-to-right,
  non-overlapping, advancing past each match (and by one position past a
  zero-width match, which is what CPython's `finditer` does for patterns
  matching the empty string).
* `match.expand(replacement)` is the identity on replacements that contain
  no back-references, so a match carries its already-expanded replacement.
* The process-wide `_tally` object is threaded explicitly.
-/

namespace Repren

abbrev Byte := Nat

/-- A candidate match: start offset, end offset, and the (already expanded)
replacement bytes.  Mirrors the `(match, replacement)` pairs of
`multi_replace` in repren.py, where a match carries `start()` and `end()`. -/
structure RMatch where
  s : Nat
  e : Nat
  repl : List Byte
deriving DecidableEq, Repr

/-- `_overlap` from repren.py: `match1.start() < match2.end() and
match2.start() < match1.end()`. -/
def overlap (m1 m2 : RMatch) : Bool :=
  decide (m1.s < m2.e) && decide (m2.s < m1.e)

/-- A literal rule: a literal byte pattern and a replacement, as produced by
`parse_patterns` for literal mode (pattern escaped, then compiled). -/
structure LitRule where
  pat : List Byte
  repl : List Byte
deriving DecidableEq, Repr

/-- One scan step of `regex.finditer` for a literal pattern: starting at
offset `p`, emit the leftmost matches, non-overlapping, advancing past each
match (by one position for a zero-width match).  `fuel` bounds the recursion;
`input.length + 2` is always enough. -/
def finditer_aux (pat input : List Byte) (p fuel : Nat) : List (Nat × Nat) :=
  match fuel with
  | 0 => []
  | fuel + 1 =>
    if p > input.length then []
    else if pat.isPrefixOf (input.drop p) then
      (p, p + pat.length) :: finditer_aux pat input (p + max pat.length 1) fuel
    else if p = input.length then []
    else finditer_aux pat input (p + 1) fuel

/-- `regex.finditer(input)` for a literal pattern. -/
def finditer (pat input : List Byte) : List (Nat × Nat) :=
  finditer_aux pat input 0 (input.length + 2)

/-- The match-collection loop of `multi_replace`: for each rule in order,
all of its finditer matches, concatenated. -/
def collect_matches (input : List Byte) (rules : List LitRule) : List RMatch :=
  rules.flatMap fun r => (finditer r.pat input).map fun pr => ⟨pr.1, pr.2, r.repl⟩

/-- `bisect.bisect_left(starts, match.start())`: the leftmost insertion index
for `m.s` in the (always kept sorted) list of start offsets of `acc`.  On a
list sorted by start this is exactly the number of leading elements with a
strictly smaller start. -/
def insertion_index (acc : List RMatch) (m : RMatch) : Nat :=
  (acc.takeWhile fun x => decide (x.s < m.s)).length

/-- The loop body of `_sort_drop_overlaps`: binary-search the insertion
index, drop the candidate if it overlaps the predecessor or the successor at
that index, otherwise insert it there.  (The log calls are omitted: they do
not affect the result.) -/
def resolver_step (acc : List RMatch) (m : RMatch) : List RMatch :=
  let idx := insertion_index acc m
  let prev_ovl : Bool :=
    if idx = 0 then false else
      match acc[idx - 1]? with
      | some p => overlap p m
      | none => false
  let next_ovl : Bool :=
    match acc[idx]? with
    | some n => overlap n m
    | none => false
  if prev_ovl then acc
  else if next_ovl then acc
  else acc.take idx ++ m :: acc.drop idx

/-- `_sort_drop_overlaps` from repren.py: fold the candidates, in collector
order, through `resolver_step`. -/
def sort_drop_overlaps (ms : List RMatch) : List RMatch :=
  ms.foldl resolver_step []

/-- Python byte-slice `input[a:b]` for `0 ≤ a`, clamping exactly like Python
does when `b ≤ a` or when the bounds exceed the length. -/
def extract (input : List Byte) (a b : Nat) : List Byte :=
  (input.drop a).take (b - a)

/-- `_apply_replacements` from repren.py, with the running position made
explicit: emit `input[pos:match.start()]`, then the expanded replacement,
then continue from `match.end()`; afterwards emit `input[pos:]`. -/
def apply_replacements_from (input : List Byte) (pos : Nat) : List RMatch → List Byte
  | [] => input.drop pos
  | m :: ms => extract input pos m.s ++ m.repl ++ apply_replacements_from input m.e ms

/-- `_apply_replacements(input_bytes, matches)` (initial `pos = 0`). -/
def apply_replacements (input : List Byte) (ms : List RMatch) : List Byte :=
  apply_replacements_from input 0 ms

/-- `_MatchCounts`: candidates found and matches applied. -/
structure MatchCounts where
  found : Nat
  valid : Nat
deriving DecidableEq, Repr

/-- `_MatchCounts.add`. -/
def MatchCounts.add (c o : MatchCounts) : MatchCounts :=
  ⟨c.found + o.found, c.valid + o.valid⟩

/-- `multi_replace(input_bytes, patterns)`: collect all candidate matches of
all rules, prune them with `_sort_drop_overlaps`, splice the replacements
with `_apply_replacements`, and report (found, valid) counts. -/
def multi_replace (input : List Byte) (rules : List LitRule) : List Byte × MatchCounts :=
  let ms := collect_matches input rules
  let sel := sort_drop_overlaps ms
  (apply_replacements input sel, ⟨ms.length, sel.length⟩)

/-- The process-wide `_Tally` dataclass.  (`matches` is a reserved word in
Lean, so that field is called `matches_found` here.) -/
structure Tally where
  files : Nat := 0
  chars : Nat := 0
  matches_found : Nat := 0
  valid_matches : Nat := 0
  files_changed : Nat := 0
  files_rewritten : Nat := 0
  renames : Nat := 0
deriving DecidableEq, Repr

/-- `multi_replace` with the `_tally` global threaded explicitly: when
`is_path` is false it adds the input length to `chars`, the candidate count
to `matches` and the selection size to `valid_matches`; when `is_path` is
true it leaves the tally untouched. -/
def multi_replace_tally (t : Tally) (input : List Byte) (rules : List LitRule)
    (is_path : Bool) : (List Byte × MatchCounts) × Tally :=
  let r := multi_replace input rules
  if is_path then (r, t)
  else
    (r, { t with
            chars := t.chars + input.length,
            matches_found := t.matches_found + r.2.found,
            valid_matches := t.valid_matches + r.2.valid })

/-! ### Properties of the overlap resolver -/

lemma overlap_comm (a b : RMatch) : overlap a b = overlap b a := by
  simp only [overlap]
  exact Bool.and_comm ..

lemma overlap_false_iff (a b : RMatch) : overlap a b = false ↔ b.e ≤ a.s ∨ a.e ≤ b.s := by
  simp only [overlap, Bool.and_eq_false_iff, decide_eq_false_iff_not, Nat.not_lt]

lemma overlap_true_iff (a b : RMatch) : overlap a b = true ↔ a.s < b.e ∧ b.s < a.e := by
  simp [overlap]

/-- Rewriting of the resolver step: with `tw`/`dw` the elements of the
accumulator with start below / not below the candidate's start, the
bisect-left index is `tw.length`, the predecessor is `tw.getLast?` and the
successor is `dw.head?`. -/
lemma resolver_step_parts (acc : List RMatch) (m : RMatch) :
    resolver_step acc m =
      if ((acc.takeWhile fun x => decide (x.s < m.s)).getLast?.elim false
            fun p => overlap p m) then acc
      else if ((acc.dropWhile fun x => decide (x.s < m.s)).head?.elim false
            fun n => overlap n m) then acc
      else (acc.takeWhile fun x => decide (x.s < m.s)) ++
            m :: (acc.dropWhile fun x => decide (x.s < m.s)) := by
  have hacc : (acc.takeWhile fun x => decide (x.s < m.s)) ++
      (acc.dropWhile fun x => decide (x.s < m.s)) = acc :=
    List.takeWhile_append_dropWhile ..
  set tw := acc.takeWhile fun x => decide (x.s < m.s) with htw
  set dw := acc.dropWhile fun x => decide (x.s < m.s) with hdw
  have hidx : insertion_index acc m = tw.length := rfl
  have hsucc : acc[insertion_index acc m]? = dw.head? := by
    rw [hidx, ← hacc, List.getElem?_append_right (Nat.le_refl _), Nat.sub_self]
    cases dw <;> simp
  have hprev : (if insertion_index acc m = 0 then false else
      match acc[insertion_index acc m - 1]? with
      | some p => overlap p m
      | none => false) = (tw.getLast?.elim false fun p => overlap p m) := by
    rcases eq_or_ne tw [] with h | h
    · simp [hidx, h]
    · have hlen : tw.length ≠ 0 := fun hc => h (List.eq_nil_of_length_eq_zero hc)
      have hlt : tw.length - 1 < tw.length := by omega
      have : acc[insertion_index acc m - 1]? = tw.getLast? := by
        rw [hidx, ← hacc, List.getElem?_append_left hlt, List.getLast?_eq_getElem?]
      rw [this]
      simp only [hidx, if_neg hlen]
      rw [List.getLast?_eq_getLast _ h]
      rfl
  have htake : acc.take (insertion_index acc m) = tw := by
    rw [hidx, ← hacc, List.take_left]
  have hdrop : acc.drop (insertion_index acc m) = dw := by
    rw [hidx, ← hacc, List.drop_left]
  unfold resolver_step
  dsimp only
  rw [hprev, hsucc, htake, hdrop]
  cases dw <;> rfl

/-- The resolver invariant: the accumulator is sorted by start offset,
pairwise non-overlapping, and every element is a nonempty interval. -/
def ResolverInv (l : List RMatch) : Prop :=
  l.Pairwise (fun a b => a.s ≤ b.s) ∧ l.Pairwise (fun a b => overlap a b = false) ∧
    ∀ x ∈ l, x.s < x.e

lemma pairwise_rel_getLast {R : RMatch → RMatch → Prop} :
    ∀ (l : List RMatch), l.Pairwise R → ∀ (h : l ≠ []) (x : RMatch), x ∈ l →
      x = l.getLast h ∨ R x (l.getLast h) := by
  intro l
  induction l with
  | nil => intro _ h; exact absurd rfl h
  | cons a t ih =>
    intro hp h x hx
    rcases List.pairwise_cons.mp hp with ⟨ha, ht⟩
    rcases eq_or_ne t [] with rfl | hne
    · rcases List.mem_singleton.mp hx with rfl
      left; rfl
    · rw [List.getLast_cons hne]
      rcases List.mem_cons.mp hx with rfl | hxt
      · right; exact ha _ (List.getLast_mem hne)
      · exact ih ht hne x hxt

/-- The resolver step never discards an element already accepted. -/
lemma resolver_step_sub (acc : List RMatch) (m : RMatch) :
    ∀ x ∈ acc, x ∈ resolver_step acc m := by
  intro x hx
  rw [resolver_step_parts]
  split
  · exact hx
  split
  · exact hx
  rw [show acc = (acc.takeWhile fun x => decide (x.s < m.s)) ++
      (acc.dropWhile fun x => decide (x.s < m.s)) from
    (List.takeWhile_append_dropWhile ..).symm] at hx
  rcases List.mem_append.mp hx with h | h
  · exact List.mem_append.mpr (Or.inl h)
  · exact List.mem_append.mpr (Or.inr (List.mem_cons_of_mem _ h))

/-- Every element of the resolver step's output was accepted earlier or is
the candidate itself. -/
lemma resolver_step_mem (acc : List RMatch) (m : RMatch) :
    ∀ x ∈ resolver_step acc m, x ∈ acc ∨ x = m := by
  intro x hx
  rw [resolver_step_parts] at hx
  split at hx
  · exact Or.inl hx
  split at hx
  · exact Or.inl hx
  rcases List.mem_append.mp hx with h | h
  · exact Or.inl (List.takeWhile_subset _ h)
  · rcases List.mem_cons.mp h with rfl | h
    · exact Or.inr rfl
    · exact Or.inl (List.dropWhile_subset _ h)

/-- Preservation of the resolver invariant by one step (for a candidate that
is a nonempty interval). -/
lemma resolver_step_inv (acc : List RMatch) (m : RMatch) (hinv : ResolverInv acc)
    (hm : m.s < m.e) : ResolverInv (resolver_step acc m) := by
  rcases hinv with ⟨hsort, hovl, hlt⟩
  rw [resolver_step_parts]
  split
  · exact ⟨hsort, hovl, hlt⟩
  next hpred =>
  split
  next hsucc => exact ⟨hsort, hovl, hlt⟩
  next hsucc =>
  set tw := acc.takeWhile fun x => decide (x.s < m.s) with htw
  set dw := acc.dropWhile fun x => decide (x.s < m.s) with hdw
  have hacc : tw ++ dw = acc := List.takeWhile_append_dropWhile ..
  -- facts about the two sides
  have htw_lt : ∀ x ∈ tw, x.s < m.s := by
    intro x hx
    simpa using List.mem_takeWhile_imp hx
  have hdw_ge : ∀ y ∈ dw, m.s ≤ y.s := by
    intro y hy
    rcases hy' : dw with _ | ⟨hd, tl⟩
    · rw [hy'] at hy; cases hy
    · have hhd : ¬ (hd.s < m.s) := by
        have := List.head?_dropWhile_not (fun x => decide (x.s < m.s)) acc
        rw [← hdw, hy'] at this
        simpa using this
      rw [hy'] at hy
      have hsort' : (hd :: tl).Pairwise (fun a b => a.s ≤ b.s) := by
        rw [← hy', hdw]
        exact hsort.sublist (List.dropWhile_sublist _)
      rcases List.mem_cons.mp hy with rfl | hytl
      · omega
      · have := (List.pairwise_cons.mp hsort').1 y hytl
        omega
  -- original pairwise facts survive on the two parts
  have hsort2 : (tw ++ dw).Pairwise (fun a b => a.s ≤ b.s) := by rw [hacc]; exact hsort
  have hovl2 : (tw ++ dw).Pairwise (fun a b => overlap a b = false) := by
    rw [hacc]; exact hovl
  rcases List.pairwise_append.mp hsort2 with ⟨hsort_tw, hsort_dw, hsort_cross⟩
  rcases List.pairwise_append.mp hovl2 with ⟨hovl_tw, hovl_dw, hovl_cross⟩
  have hlt' : ∀ x ∈ tw ++ dw, x.s < x.e := by rw [hacc]; exact hlt
  -- the candidate does not overlap anything on the left
  have hleft : ∀ x ∈ tw, overlap x m = false := by
    intro x hx
    have hne : tw ≠ [] := List.ne_nil_of_mem hx
    have hpred' : overlap (tw.getLast hne) m = false := by
      rw [List.getLast?_eq_getLast _ hne] at hpred
      simpa using Bool.of_not_eq_true hpred
    have hplt : (tw.getLast hne).s < m.s := htw_lt _ (List.getLast_mem hne)
    have hpe : (tw.getLast hne).s < (tw.getLast hne).e :=
      hlt' _ (List.mem_append.mpr (Or.inl (List.getLast_mem hne)))
    have hpred_le : (tw.getLast hne).e ≤ m.s := by
      rcases (overlap_false_iff ..).mp hpred' with h | h <;> omega
    rcases pairwise_rel_getLast tw hovl_tw hne x hx with rfl | hxR
    · exact hpred'
    · have hxe : x.s < x.e := hlt' _ (List.mem_append.mpr (Or.inl hx))
      have hxs : x = tw.getLast hne ∨ x.s ≤ (tw.getLast hne).s :=
        (pairwise_rel_getLast tw hsort_tw hne x hx)
      have hxle : x.e ≤ (tw.getLast hne).s := by
        rcases hxs with rfl | hxs
        · rcases (overlap_false_iff ..).mp hxR with h | h <;> omega
        · rcases (overlap_false_iff ..).mp hxR with h | h <;> omega
      rw [overlap_false_iff]
      omega
  -- the candidate does not overlap anything on the right
  have hright : ∀ y ∈ dw, overlap m y = false := by
    intro y hy
    rcases hy' : dw with _ | ⟨hd, tl⟩
    · rw [hy'] at hy; cases hy
    · have hsucc' : overlap hd m = false := by
        rw [hdw] at hy' hsucc
        rw [hy'] at hsucc
        simpa using Bool.of_not_eq_true hsucc
      have hhs : m.s ≤ hd.s := hdw_ge hd (by rw [hy']; exact List.mem_cons_self ..)
      have hhd_lt : hd.s < hd.e :=
        hlt' _ (List.mem_append.mpr (Or.inr (by rw [hy']; exact List.mem_cons_self ..)))
      have hme : m.e ≤ hd.s := by
        rcases (overlap_false_iff ..).mp hsucc' with h | h <;> omega
      have hys : hd.s ≤ y.s := by
        rw [hy'] at hy
        rcases List.mem_cons.mp hy with rfl | hytl
        · omega
        · exact (List.pairwise_cons.mp (by rw [← hy']; exact hsort_dw)).1 y hytl
      rw [overlap_false_iff]
      omega
  refine ⟨?_, ?_, ?_⟩
  · rw [List.pairwise_append]
    refine ⟨hsort_tw, List.pairwise_cons.mpr ⟨fun y hy => hdw_ge y hy, hsort_dw⟩, ?_⟩
    intro a ha b hb
    rcases List.mem_cons.mp hb with rfl | hb
    · exact Nat.le_of_lt (htw_lt a ha)
    · exact hsort_cross a ha b hb
  · rw [List.pairwise_append]
    refine ⟨hovl_tw, List.pairwise_cons.mpr ⟨fun y hy => hright y hy, hovl_dw⟩, ?_⟩
    intro a ha b hb
    rcases List.mem_cons.mp hb with rfl | hb
    · exact hleft a ha
    · exact hovl_cross a ha b hb
  · intro x hx
    rcases List.mem_append.mp hx with h | h
    · exact hlt' _ (List.mem_append.mpr (Or.inl h))
    · rcases List.mem_cons.mp h with rfl | h
      · exact hm
      · exact hlt' _ (List.mem_append.mpr (Or.inr h))

lemma foldl_resolver_sub (l : List RMatch) (acc : List RMatch) :
    ∀ x ∈ acc, x ∈ l.foldl resolver_step acc := by
  induction l generalizing acc with
  | nil => intro x hx; exact hx
  | cons a t ih =>
    intro x hx
    exact ih _ x (resolver_step_sub acc a x hx)

lemma foldl_resolver_mem (l : List RMatch) (acc : List RMatch) :
    ∀ x ∈ l.foldl resolver_step acc, x ∈ acc ∨ x ∈ l := by
  induction l generalizing acc with
  | nil => intro x hx; exact Or.inl hx
  | cons a t ih =>
    intro x hx
    rcases ih _ x hx with h | h
    · rcases resolver_step_mem acc a x h with h | rfl
      · exact Or.inl h
      · exact Or.inr (List.mem_cons_self ..)
    · exact Or.inr (List.mem_cons_of_mem _ h)

lemma foldl_resolver_inv (l : List RMatch) (acc : List RMatch)
    (hinv : ResolverInv acc) (hl : ∀ m ∈ l, m.s < m.e) :
    ResolverInv (l.foldl resolver_step acc) := by
  induction l generalizing acc with
  | nil => exact hinv
  | cons a t ih =>
    exact ih _ (resolver_step_inv acc a hinv (hl a (List.mem_cons_self ..)))
      (fun m hm => hl m (List.mem_cons_of_mem _ hm))

/-- The resolver's selection on candidates that are all nonempty intervals
is sorted by start and pairwise non-overlapping. -/
lemma sort_drop_overlaps_inv (ms : List RMatch) (h : ∀ m ∈ ms, m.s < m.e) :
    ResolverInv (sort_drop_overlaps ms) :=
  foldl_resolver_inv ms [] ⟨List.Pairwise.nil, List.Pairwise.nil, by simp⟩ h

/-- The selection is a subset of the candidates. -/
lemma sort_drop_overlaps_subset (ms : List RMatch) :
    ∀ x ∈ sort_drop_overlaps ms, x ∈ ms := by
  intro x hx
  rcases foldl_resolver_mem ms [] x hx with h | h
  · cases h
  · exact h

/-- Selected matches stay selected as further candidates are processed. -/
lemma sort_drop_overlaps_mono (l l' : List RMatch) :
    ∀ x ∈ sort_drop_overlaps l, x ∈ sort_drop_overlaps (l ++ l') := by
  intro x hx
  unfold sort_drop_overlaps at *
  rw [List.foldl_append]
  exact foldl_resolver_sub l' _ x hx

/-- On candidates that are nonempty intervals the selection is pairwise
disjoint in the strong ordered sense: each accepted match ends no later than
the next one starts. -/
lemma sort_drop_overlaps_disjoint (ms : List RMatch) (h : ∀ m ∈ ms, m.s < m.e) :
    (sort_drop_overlaps ms).Pairwise (fun a b => a.e ≤ b.s) := by
  rcases sort_drop_overlaps_inv ms h with ⟨hsort, hovl, hlt⟩
  have := hsort.and hovl
  refine this.imp_of_mem ?_
  intro a b ha hb hab
  rcases hab with ⟨hle, hofalse⟩
  have hb' : b.s < b.e := hlt b hb
  rcases (overlap_false_iff ..).mp hofalse with h' | h' <;> omega

/-! ### Properties of the match collector -/

lemma finditer_aux_bounds (pat input : List Byte) :
    ∀ fuel p, ∀ pr ∈ finditer_aux pat input p fuel,
      p ≤ pr.1 ∧ pr.2 = pr.1 + pat.length ∧ pr.2 ≤ input.length ∧
        pat.isPrefixOf (input.drop pr.1) := by
  intro fuel
  induction fuel with
  | zero => intro p pr hpr; simp [finditer_aux] at hpr
  | succ fuel ih =>
    intro p pr hpr
    rw [finditer_aux] at hpr
    split at hpr
    · cases hpr
    next hp =>
    split at hpr
    next hpre =>
      rcases List.mem_cons.mp hpr with rfl | hpr
      · refine ⟨Nat.le_refl _, rfl, ?_, hpre⟩
        have hl : pat.length ≤ (input.drop p).length :=
          ((List.isPrefixOf_iff_prefix).mp hpre).length_le
        rw [List.length_drop] at hl
        omega
      · rcases ih _ _ hpr with ⟨h1, h2, h3, h4⟩
        exact ⟨by omega, h2, h3, h4⟩
    next hpre =>
      split at hpr
      · cases hpr
      · rcases ih _ _ hpr with ⟨h1, h2, h3, h4⟩
        exact ⟨by omega, h2, h3, h4⟩

lemma collect_matches_bounds (input : List Byte) (rules : List LitRule) :
    ∀ m ∈ collect_matches input rules, m.s ≤ m.e ∧ m.e ≤ input.length := by
  intro m hm
  rcases List.mem_flatMap.mp hm with ⟨r, _, hm⟩
  rcases List.mem_map.mp hm with ⟨pr, hpr, rfl⟩
  rcases finditer_aux_bounds r.pat input _ _ pr hpr with ⟨_, h2, h3, _⟩
  exact ⟨by simp [h2], h3⟩

lemma collect_matches_pos (input : List Byte) (rules : List LitRule)
    (h : ∀ r ∈ rules, r.pat ≠ []) :
    ∀ m ∈ collect_matches input rules, m.s < m.e := by
  intro m hm
  rcases List.mem_flatMap.mp hm with ⟨r, hr, hm⟩
  rcases List.mem_map.mp hm with ⟨pr, hpr, rfl⟩
  rcases finditer_aux_bounds r.pat input _ _ pr hpr with ⟨_, h2, _, _⟩
  have : r.pat.length ≠ 0 := fun hc => h r hr (List.eq_nil_of_length_eq_zero hc)
  simp only [h2]
  omega

/-! ### Claim theorems: the replacement engine -/

/-- C1 (amended).  For every input and every rule set whose patterns cannot
match the empty string, the output of `multi_replace` is exactly the splice
(`_apply_replacements`) of the selection obtained by collecting all candidate
matches of all rules and pruning them with `_sort_drop_overlaps`; that
selection is pairwise disjoint and ordered (each applied match ends before
the next begins) and lies inside the original input, so every replaced region
is a region of the original input and no byte of an applied replacement is
ever matched or rewritten by another rule in the same run. -/
theorem multi_replace_one_pass (input : List Byte) (rules : List LitRule)
    (h : ∀ r ∈ rules, r.pat ≠ []) :
    (multi_replace input rules).1 =
      apply_replacements input (sort_drop_overlaps (collect_matches input rules)) ∧
    (sort_drop_overlaps (collect_matches input rules)).Pairwise
      (fun a b => a.e ≤ b.s) ∧
    ∀ m ∈ sort_drop_overlaps (collect_matches input rules),
      m.s < m.e ∧ m.e ≤ input.length := by
  refine ⟨rfl, ?_, ?_⟩
  · exact sort_drop_overlaps_disjoint _ (collect_matches_pos input rules h)
  · intro m hm
    have hmem := sort_drop_overlaps_subset _ m hm
    exact ⟨collect_matches_pos input rules h m hmem,
      (collect_matches_bounds input rules m hmem).2⟩

theorem multi_replace_one_pass_witness :
    (∀ r ∈ ([⟨[102, 111, 111], [88]⟩, ⟨[98, 97, 114], [89]⟩] : List LitRule),
      r.pat ≠ []) ∧
    ((multi_replace [102, 111, 111, 32, 98, 97, 114]
        [⟨[102, 111, 111], [88]⟩, ⟨[98, 97, 114], [89]⟩]).1 =
      apply_replacements [102, 111, 111, 32, 98, 97, 114]
        (sort_drop_overlaps (collect_matches [102, 111, 111, 32, 98, 97, 114]
          [⟨[102, 111, 111], [88]⟩, ⟨[98, 97, 114], [89]⟩])) ∧
    (sort_drop_overlaps (collect_matches [102, 111, 111, 32, 98, 97, 114]
        [⟨[102, 111, 111], [88]⟩, ⟨[98, 97, 114], [89]⟩])).Pairwise
      (fun a b => a.e ≤ b.s) ∧
    ∀ m ∈ sort_drop_overlaps (collect_matches [102, 111, 111, 32, 98, 97, 114]
        [⟨[102, 111, 111], [88]⟩, ⟨[98, 97, 114], [89]⟩]),
      m.s < m.e ∧ m.e ≤ ([102, 111, 111, 32, 98, 97, 114] : List Byte).length) :=
  ⟨by decide, multi_replace_one_pass [102, 111, 111, 32, 98, 97, 114]
    [⟨[102, 111, 111], [88]⟩, ⟨[98, 97, 114], [89]⟩] (by decide)⟩

/-- C1 counterexample.  With a rule whose regex matches the empty string
(pattern `""`), the claim fails for the rule set
`[("" -> "-"), ("ab" -> "X")]` on input `"ab"`: the selection retained by
the resolver is not disjoint (the whole-input match `(0,2)` and the
zero-width match `(1,1)` strictly inside it are both applied), and the
output `"X-a-b-"` rewrites the bytes `a` and `b` even though they are
covered by the applied replacement `X`. -/
theorem multi_replace_one_pass_counterexample :
    (⟨0, 2, [88]⟩ : RMatch) ∈
      sort_drop_overlaps (collect_matches [97, 98] [⟨[], [45]⟩, ⟨[97, 98], [88]⟩]) ∧
    (⟨1, 1, [45]⟩ : RMatch) ∈
      sort_drop_overlaps (collect_matches [97, 98] [⟨[], [45]⟩, ⟨[97, 98], [88]⟩]) ∧
    overlap ⟨0, 2, [88]⟩ ⟨1, 1, [45]⟩ = true ∧
    (multi_replace [97, 98] [⟨[], [45]⟩, ⟨[97, 98], [88]⟩]).1 =
      [88, 45, 97, 45, 98, 45] := by
  decide

/-- C2 (amended).  The resolver (binary-search insertion by start offset,
discarding a candidate that overlaps its predecessor or successor at the
insertion point, with `(s1,e1)`, `(s2,e2)` overlapping iff
`s1 < e2 ∧ s2 < e1`) guarantees, for candidates that are nonempty
intervals: no two matches retained in the selection overlap, and a match
accepted from an earlier part of the candidate stream is never displaced by
a later candidate.  Hence two conflicting matches are never both applied,
and when the earlier rule's match is accepted the later rule's conflicting
match is dropped; the later rule's match can itself be applied only when
the earlier rule's match was already dropped against a third match. -/
theorem sort_drop_overlaps_earlier_wins (ms ms' : List RMatch)
    (h : ∀ m ∈ ms ++ ms', m.s < m.e) :
    (sort_drop_overlaps (ms ++ ms')).Pairwise (fun a b => overlap a b = false) ∧
    ∀ x ∈ sort_drop_overlaps ms, x ∈ sort_drop_overlaps (ms ++ ms') := by
  refine ⟨(sort_drop_overlaps_inv _ h).2.1, sort_drop_overlaps_mono ms ms'⟩

theorem sort_drop_overlaps_earlier_wins_witness :
    (∀ m ∈ ([⟨0, 2, [88]⟩] ++ [⟨1, 3, [89]⟩] : List RMatch), m.s < m.e) ∧
    ((sort_drop_overlaps ([⟨0, 2, [88]⟩] ++ [⟨1, 3, [89]⟩])).Pairwise
      (fun a b => overlap a b = false) ∧
    ∀ x ∈ sort_drop_overlaps [⟨0, 2, [88]⟩],
      x ∈ sort_drop_overlaps ([⟨0, 2, [88]⟩] ++ [⟨1, 3, [89]⟩])) :=
  ⟨by decide, sort_drop_overlaps_earlier_wins [⟨0, 2, [88]⟩] [⟨1, 3, [89]⟩] (by decide)⟩

/-- C2 counterexample.  "Whenever two rules' matches conflict, the match of
the rule appearing earlier in the rule set is the one applied" is false as a
universal statement: on input `"abcd"` with rules
`[("ab" -> "X"), ("bcd" -> "Y"), ("c" -> "Z")]`, rule 2's only match `(1,4)`
and rule 3's only match `(2,3)` conflict, yet rule 3's match is applied and
rule 2's is not (rule 2's match was dropped against rule 1's `(0,2)`,
after which rule 3's match no longer conflicts with anything retained). -/
theorem sort_drop_overlaps_earlier_wins_counterexample :
    collect_matches [97, 98, 99, 100] [⟨[98, 99, 100], [89]⟩] = [⟨1, 4, [89]⟩] ∧
    collect_matches [97, 98, 99, 100] [⟨[99], [90]⟩] = [⟨2, 3, [90]⟩] ∧
    overlap ⟨1, 4, [89]⟩ ⟨2, 3, [90]⟩ = true ∧
    (⟨2, 3, [90]⟩ : RMatch) ∈ sort_drop_overlaps (collect_matches [97, 98, 99, 100]
      [⟨[97, 98], [88]⟩, ⟨[98, 99, 100], [89]⟩, ⟨[99], [90]⟩]) ∧
    (⟨1, 4, [89]⟩ : RMatch) ∉ sort_drop_overlaps (collect_matches [97, 98, 99, 100]
      [⟨[97, 98], [88]⟩, ⟨[98, 99, 100], [89]⟩, ⟨[99], [90]⟩]) := by
  decide

/-- C6 (amended).  Every candidate match produced by the collector, and
hence every match retained by the resolver, satisfies `start ≤ end` with
both offsets in `[0, input_length]`; the strict inequality `start < end`
holds whenever no rule's regex can match the empty string, but fails for
rules that can (see the counterexample). -/
theorem match_offsets_invariant (input : List Byte) (rules : List LitRule) :
    (∀ m ∈ collect_matches input rules, m.s ≤ m.e ∧ m.e ≤ input.length) ∧
    (∀ m ∈ sort_drop_overlaps (collect_matches input rules),
      m.s ≤ m.e ∧ m.e ≤ input.length) ∧
    ((∀ r ∈ rules, r.pat ≠ []) →
      ∀ m ∈ sort_drop_overlaps (collect_matches input rules), m.s < m.e) := by
  refine ⟨collect_matches_bounds input rules, ?_, ?_⟩
  · intro m hm
    exact collect_matches_bounds input rules m (sort_drop_overlaps_subset _ m hm)
  · intro h m hm
    exact collect_matches_pos input rules h m (sort_drop_overlaps_subset _ m hm)

theorem match_offsets_invariant_witness :
    (∀ m ∈ collect_matches [97, 98] [⟨[97], [88]⟩],
      m.s ≤ m.e ∧ m.e ≤ ([97, 98] : List Byte).length) ∧
    (∀ m ∈ sort_drop_overlaps (collect_matches [97, 98] [⟨[97], [88]⟩]),
      m.s ≤ m.e ∧ m.e ≤ ([97, 98] : List Byte).length) ∧
    (∀ m ∈ sort_drop_overlaps (collect_matches [97, 98] [⟨[97], [88]⟩]),
      m.s < m.e) :=
  ⟨(match_offsets_invariant [97, 98] [⟨[97], [88]⟩]).1,
    (match_offsets_invariant [97, 98] [⟨[97], [88]⟩]).2.1,
    (match_offsets_invariant [97, 98] [⟨[97], [88]⟩]).2.2 (by decide)⟩

/-- C6 counterexample.  For a rule whose regex matches the empty string the
collector produces, and the resolver retains, a zero-width match with
`start = end`, so the claimed strict invariant `start < end` does not hold
for every rule set: pattern `""` on input `""` yields the retained match
`(0,0)`. -/
theorem match_offsets_invariant_counterexample :
    (⟨0, 0, [45]⟩ : RMatch) ∈ collect_matches [] [⟨[], [45]⟩] ∧
    (⟨0, 0, [45]⟩ : RMatch) ∈ sort_drop_overlaps (collect_matches [] [⟨[], [45]⟩]) ∧
    ¬ ((0 : Nat) < (0 : Nat)) := by
  decide

/-- C10.  `multi_replace` invoked in path mode (`is_path = true`, as used
for rename destinations and undo predictions) leaves the process-wide tally
unchanged: no field of the tally (in particular `chars`, `matches_found`
and `valid_matches`) is modified. -/
theorem multi_replace_path_mode_preserves_tally (t : Tally) (input : List Byte)
    (rules : List LitRule) :
    (multi_replace_tally t input rules true).2 = t := rfl

/-! ### The pattern loader (`parse_patterns`)

Pattern text is modelled as a list of characters; `str.split` with a
single-character separator and `str.strip` are given their Python meaning.
Rule construction is modelled for literal mode with the other flags off
(`re.escape` makes the compiled pattern match the source text literally, so
a compiled rule is just the byte strings of the two fields); the line
classification logic, which the claims are about, is identical for every
flag combination.  Encoding is faithful for ASCII text via code points. -/

/-- Python `str.split(sep)` for a one-character separator. -/
def split_on_char (c : Char) : List Char → List (List Char)
  | [] => [[]]
  | a :: rest =>
    if a = c then [] :: split_on_char c rest
    else
      match split_on_char c rest with
      | [] => [[a]]
      | f :: r => (a :: f) :: r

/-- The whitespace characters removed by Python `str.strip()` (ASCII). -/
def is_space_char (c : Char) : Bool := c.toNat ∈ [9, 10, 11, 12, 13, 32]

/-- Python `str.strip()`. -/
def strip (l : List Char) : List Char :=
  ((l.dropWhile is_space_char).reverse.dropWhile is_space_char).reverse

/-- `str.encode("utf-8")` restricted to the ASCII range: byte = code point. -/
def encode_bytes (l : List Char) : List Byte := l.map Char.toNat

/-- The per-line processing of `parse_patterns`: split on TAB; skip the line
if its stripped form starts with `#`; if the stripped line is non-empty and
there are exactly two fields, compile one rule from them (literal mode);
otherwise fall through silently, producing nothing.  This mirrors the
`if/elif` in the source, which has no other branch. -/
def parse_pattern_line (line : List Char) : List LitRule :=
  let bits := split_on_char '\t' line
  if (strip line).take 1 = ['#'] then []
  else if strip line ≠ [] ∧ bits.length = 2 then
    match bits with
    | p :: r :: _ => [⟨encode_bytes p, encode_bytes r⟩]
    | _ => []
  else []

/-- `parse_patterns(patterns_str)` (literal mode, flags off).  The `Except`
layer is the `_fail` channel of the source; in the source an error is raised
only by an exception while constructing a rule (bad regex, strict zip), never
by the field-count test, and in literal mode no such exception can occur, so
the result here is always `ok`. -/
def parse_patterns (patterns_str : List Char) : Except (List Char) (List LitRule) :=
  Except.ok ((split_on_char '\n' patterns_str).flatMap parse_pattern_line)

lemma split_on_char_append (c : Char) (l r : List Char) (hl : c ∉ l) :
    split_on_char c (l ++ c :: r) = l :: split_on_char c r := by
  induction l with
  | nil => simp [split_on_char]
  | cons a t ih =>
    have hac : a ≠ c := fun hc => hl (hc ▸ List.mem_cons_self ..)
    have ht : c ∉ t := fun hc => hl (List.mem_cons_of_mem _ hc)
    rw [List.cons_append, split_on_char]
    rw [if_neg hac, ih ht]

/-- C4 (amended).  A non-blank, non-comment line that does not split into
exactly two tab-separated fields is silently ignored by the pattern loader:
it produces no rule and no error, and the remaining lines are parsed exactly
as if the malformed line were absent. -/
theorem parse_patterns_malformed_line_ignored (line rest : List Char)
    (hline : '\n' ∉ line)
    (hblank : strip line ≠ [])
    (hcomment : (strip line).take 1 ≠ ['#'])
    (hfields : (split_on_char '\t' line).length ≠ 2) :
    parse_patterns (line ++ '\n' :: rest) = parse_patterns rest := by
  unfold parse_patterns
  rw [split_on_char_append _ _ _ hline]
  have hl : parse_pattern_line line = [] := by
    unfold parse_pattern_line
    rw [if_neg hcomment, if_neg (by intro h; exact hfields h.2)]
  rw [List.flatMap_cons, hl, List.nil_append]

theorem parse_patterns_malformed_line_ignored_witness :
    ('\n' ∉ ['f', 'o', 'o'] ∧ strip ['f', 'o', 'o'] ≠ [] ∧
      (strip ['f', 'o', 'o']).take 1 ≠ ['#'] ∧
      (split_on_char '\t' ['f', 'o', 'o']).length ≠ 2) ∧
    parse_patterns (['f', 'o', 'o'] ++ '\n' :: ['x', '\t', 'y']) =
      parse_patterns ['x', '\t', 'y'] :=
  ⟨by decide, parse_patterns_malformed_line_ignored ['f', 'o', 'o'] ['x', '\t', 'y']
    (by decide) (by decide) (by decide) (by decide)⟩

/-- C4 counterexample.  The pattern text `"foo"` consists of one non-blank,
non-comment line with a single tab-separated field; the loader does not fail:
it succeeds with an empty rule set.  With a following well-formed line
`"x<TAB>y"` the loader still succeeds, returning only that line's rule — the
malformed line is neither an error nor a rule. -/
theorem parse_patterns_malformed_line_counterexample :
    parse_patterns ['f', 'o', 'o'] = Except.ok [] ∧
    parse_patterns ['f', 'o', 'o', '\n', 'x', '\t', 'y'] =
      Except.ok [⟨[120], [121]⟩] :=
  ⟨rfl, rfl⟩

/-! ### Filesystem model

Paths are lists of characters; a filesystem is a finite association of
paths to files (content bytes plus a modification time) together with a set
of directories.  This is the state the file-handling functions of repren.py
read and write through `os`/`shutil`. -/

abbrev Path := List Char

/-- A regular file: content plus modification time. -/
structure FSFile where
  content : List Byte
  mtime : Nat
deriving DecidableEq, Repr

/-- Filesystem state: regular files and directories. -/
structure FS where
  files : List (Path × FSFile)
  dirs : List Path
deriving DecidableEq, Repr

def FS.lookup (fs : FS) (p : Path) : Option FSFile :=
  (fs.files.find? fun pr => decide (pr.1 = p)).map Prod.snd

def FS.is_file (fs : FS) (p : Path) : Bool :=
  (fs.lookup p).isSome

/-- `os.path.exists`. -/
def FS.path_exists (fs : FS) (p : Path) : Bool :=
  fs.is_file p || fs.dirs.contains p

/-- Delete a file entry (`os.remove`); no-op here if absent (callers in the
source only remove files they just created or checked). -/
def FS.remove_file (fs : FS) (p : Path) : FS :=
  { fs with files := fs.files.filter fun pr => decide (pr.1 ≠ p) }

/-- Create or replace the entry for `p` with file `f`. -/
def FS.set_file (fs : FS) (p : Path) (f : FSFile) : FS :=
  { fs with files := (fs.remove_file p).files ++ [(p, f)] }

/-- `shutil.move src dst` on a regular file: the file (content and mtime)
disappears from `src` and appears at `dst`, overwriting anything at `dst`. -/
def FS.move_raw (fs : FS) (src dst : Path) : FS :=
  match fs.lookup src with
  | none => fs
  | some f => (fs.remove_file src).set_file dst f

/-- `os.path.getmtime` (callers only invoke it on paths they checked). -/
def FS.getmtime (fs : FS) (p : Path) : Nat :=
  match fs.lookup p with
  | some f => f.mtime
  | none => 0

/-! ### `move_file` and its no-clobber destination search -/

/-- The regex `(.*)[.]\d+$` of `move_file`: if the path ends in a dot
followed by one or more (ASCII) digits, `group(1)` is the part before that
final dot; otherwise no match. -/
def strip_num_suffix (p : Path) : Option Path :=
  let tail := p.reverse.takeWhile fun c => decide (c ≠ '.')
  if tail.length < p.length ∧ tail ≠ [] ∧ tail.all Char.isDigit then
    some (p.take (p.length - tail.length - 1))
  else none

/-- The `while os.path.exists(dest_path)` loop of `move_file` with
`clobber=False`: strip an existing `.N` suffix, append `.i`, and retry with
`i+1`.  `f"{i}"` is the decimal rendering `Nat.toDigits 10 i`.  `fuel`
bounds the iteration count (the Python loop always terminates because the
candidates are eventually fresh); `none` means the fuel ran out. -/
def find_noclobber_dest (fs : FS) (dest : Path) (i fuel : Nat) : Option Path :=
  match fuel with
  | 0 => none
  | fuel + 1 =>
    if fs.path_exists dest then
      find_noclobber_dest fs
        ((strip_num_suffix dest).getD dest ++ '.' :: Nat.toDigits 10 i) (i + 1) fuel
    else some dest

/-- `move_file(source_path, dest_path, clobber)`: with `clobber` the move
overwrites `dest` unconditionally; without it the destination is first
renamed by the numeric-suffix search.  Returns the new filesystem and the
path actually written. -/
def move_file (fs : FS) (source dest : Path) (clobber : Bool) (fuel : Nat) :
    Option (FS × Path) :=
  if clobber then some (fs.move_raw source dest, dest)
  else (find_noclobber_dest fs dest 1 fuel).map fun d => (fs.move_raw source d, d)

lemma toDigitsCore_digits (fuel n : Nat) (ds : List Char)
    (hds : ∀ c ∈ ds, c.isDigit = true) :
    ∀ c ∈ Nat.toDigitsCore 10 fuel n ds, c.isDigit = true := by
  induction fuel generalizing n ds with
  | zero => exact hds
  | succ fuel ih =>
    intro c hc
    rw [Nat.toDigitsCore] at hc
    have hd : (n % 10).digitChar.isDigit = true := by
      have h10 : n % 10 < 10 := Nat.mod_lt _ (by norm_num)
      set k := n % 10 with hk
      interval_cases k <;> decide
    split at hc
    · rcases List.mem_cons.mp hc with rfl | hc
      · exact hd
      · exact hds c hc
    · refine ih _ _ ?_ c hc
      intro c' hc'
      rcases List.mem_cons.mp hc' with rfl | hc'
      · exact hd
      · exact hds c' hc'

lemma toDigitsCore_ne_nil (fuel n : Nat) (ds : List Char) :
    (Nat.toDigitsCore 10 (fuel + 1) n ds).length > ds.length := by
  induction fuel generalizing n ds with
  | zero =>
    rw [Nat.toDigitsCore]
    split
    · simp
    · simp [Nat.toDigitsCore]
  | succ fuel ih =>
    rw [Nat.toDigitsCore]
    split
    · simp
    · calc ds.length < (((n % 10).digitChar :: ds)).length := by simp
        _ ≤ _ := Nat.le_of_lt (ih (n / 10) _)

lemma toDigits_digits (n : Nat) : ∀ c ∈ Nat.toDigits 10 n, c.isDigit = true :=
  toDigitsCore_digits (n + 1) n [] (by simp)

lemma toDigits_ne_nil (n : Nat) : Nat.toDigits 10 n ≠ [] := by
  have := toDigitsCore_ne_nil n n []
  rw [Nat.toDigits]
  intro h
  rw [h] at this
  simp at this

/-- Stripping the numeric suffix of `base ++ "." ++ digits` recovers `base`. -/
lemma strip_num_suffix_append (base : Path) (ds : List Char) (hne : ds ≠ [])
    (hdig : ∀ c ∈ ds, c.isDigit = true) :
    strip_num_suffix (base ++ '.' :: ds) = some base := by
  have hnodot : ∀ c ∈ ds.reverse, (fun c => decide (c ≠ '.')) c = true := by
    intro c hc
    have := hdig c (List.mem_reverse.mp hc)
    simp only [decide_eq_true_iff]
    intro hcc
    rw [hcc] at this
    cases this
  have hrev : (base ++ '.' :: ds).reverse = ds.reverse ++ '.' :: base.reverse := by
    simp
  have hgen : ∀ l : List Char, (∀ c ∈ l, (fun c => decide (c ≠ '.')) c = true) →
      (l.takeWhile fun c => decide (c ≠ '.')) = l := by
    intro l
    induction l with
    | nil => intro _; rfl
    | cons a t iht =>
      intro hall
      rw [List.takeWhile_cons, if_pos (by simpa using hall a (List.mem_cons_self ..)),
        iht fun c hc => hall c (List.mem_cons_of_mem _ hc)]
  have hself : (ds.reverse.takeWhile fun c => decide (c ≠ '.')) = ds.reverse :=
    hgen ds.reverse hnodot
  have htail : ((base ++ '.' :: ds).reverse.takeWhile fun c => decide (c ≠ '.')) =
      ds.reverse := by
    rw [hrev, List.takeWhile_append, if_pos (by rw [hself])]
    rw [List.takeWhile_cons_of_neg (by simp), List.append_nil]
  unfold strip_num_suffix
  rw [htail]
  rw [if_pos]
  · congr 1
    have hlen : (base ++ '.' :: ds).length - ds.reverse.length - 1 = base.length := by
      simp only [List.length_append, List.length_cons, List.length_reverse]
      omega
    rw [hlen]
    exact List.take_left ..
  · refine ⟨?_, ?_, ?_⟩
    · simp only [List.length_append, List.length_cons, List.length_reverse]
      omega
    · simp only [ne_eq, List.reverse_eq_nil_iff]
      exact hne
    · rw [List.all_eq_true]
      intro c hc
      exact hdig c (List.mem_reverse.mp hc)

/-- Loop invariant of the no-clobber destination search: when the search
returns a path, that path does not exist; if the original destination was
free it is returned unchanged; otherwise the result is the destination's
base (its `.N` suffix stripped if present) with a single numeric suffix
`.n` appended, and every earlier candidate `.m` (`i ≤ m < n`) existed. -/
lemma find_noclobber_dest_spec (fs : FS) :
    ∀ fuel dest i d, find_noclobber_dest fs dest i fuel = some d →
      fs.path_exists d = false ∧
      (fs.path_exists dest = false → d = dest) ∧
      (fs.path_exists dest = true →
        ∃ n, i ≤ n ∧
          d = (strip_num_suffix dest).getD dest ++ '.' :: Nat.toDigits 10 n ∧
          ∀ m, i ≤ m → m < n →
            fs.path_exists
              ((strip_num_suffix dest).getD dest ++ '.' :: Nat.toDigits 10 m) = true) := by
  intro fuel
  induction fuel with
  | zero => intro dest i d h; cases h
  | succ fuel ih =>
    intro dest i d h
    rw [find_noclobber_dest] at h
    split at h
    next hex =>
      rcases ih _ _ _ h with ⟨h1, h2, h3⟩
      have hstrip : (strip_num_suffix ((strip_num_suffix dest).getD dest ++
          '.' :: Nat.toDigits 10 i)).getD
            ((strip_num_suffix dest).getD dest ++ '.' :: Nat.toDigits 10 i) =
          (strip_num_suffix dest).getD dest := by
        rw [strip_num_suffix_append _ _ (toDigits_ne_nil i) (toDigits_digits i)]
        rfl
      refine ⟨h1, ?_, ?_⟩
      · intro hfalse
        rw [hfalse] at hex
        cases hex
      · intro _
        by_cases hnext : fs.path_exists
            ((strip_num_suffix dest).getD dest ++ '.' :: Nat.toDigits 10 i) = true
        · rcases h3 hnext with ⟨n, hn1, hn2, hn3⟩
          rw [hstrip] at hn2 hn3
          refine ⟨n, by omega, hn2, ?_⟩
          intro m hm1 hm2
          rcases Nat.eq_or_lt_of_le hm1 with rfl | hm1'
          · exact hnext
          · exact hn3 m hm1' hm2
        · have hd := h2 (by simpa using hnext)
          refine ⟨i, Nat.le_refl _, hd, ?_⟩
          intro m hm1 hm2
          omega
    next hex =>
      have hde : dest = d := Option.some.inj h
      have hfree : fs.path_exists dest = false := by simpa using hex
      refine ⟨hde ▸ hfree, fun _ => hde.symm, fun htrue => ?_⟩
      rw [htrue] at hfree
      cases hfree

/-- C7.  The no-clobber move (`move_file` with `clobber=False`): when it
completes, the path actually written did not previously exist (the move
never overwrites an existing file); if the requested destination was free it
is used as is; if it already existed, the result is the destination with any
existing trailing `.N` digit suffix stripped and a single fresh numeric
suffix `.n` appended — suffixes stay flat and never accumulate — where every
earlier suffix `.1 … .(n-1)` was already taken. -/
theorem move_file_no_clobber_safe (fs : FS) (source dest : Path) (fuel : Nat)
    (fs' : FS) (d : Path)
    (h : move_file fs source dest false fuel = some (fs', d)) :
    fs.path_exists d = false ∧
    (fs.path_exists dest = false → d = dest) ∧
    (fs.path_exists dest = true →
      ∃ n, 1 ≤ n ∧
        d = (strip_num_suffix dest).getD dest ++ '.' :: Nat.toDigits 10 n ∧
        ∀ m, 1 ≤ m → m < n →
          fs.path_exists
            ((strip_num_suffix dest).getD dest ++ '.' :: Nat.toDigits 10 m) = true) ∧
    fs' = fs.move_raw source d := by
  unfold move_file at h
  rw [if_neg (by simp)] at h
  rcases Option.map_eq_some'.mp h with ⟨a, ha, hpair⟩
  rcases Prod.mk.injEq .. ▸ hpair with ⟨hfs, hd⟩
  subst hd
  rcases find_noclobber_dest_spec fs fuel dest 1 a ha with ⟨h1, h2, h3⟩
  exact ⟨h1, h2, h3, hfs.symm⟩

theorem move_file_no_clobber_safe_witness :
    (move_file ⟨[(['f'], ⟨[1], 0⟩), (['g'], ⟨[2], 0⟩)], []⟩ ['f'] ['g'] false 5 =
      some (⟨[(['g'], ⟨[2], 0⟩), (['g', '.', '1'], ⟨[1], 0⟩)], []⟩, ['g', '.', '1'])) ∧
    FS.path_exists ⟨[(['f'], ⟨[1], 0⟩), (['g'], ⟨[2], 0⟩)], []⟩ ['g', '.', '1'] = false ∧
    (⟨[(['g'], ⟨[2], 0⟩), (['g', '.', '1'], ⟨[1], 0⟩)], []⟩ : FS) =
      FS.move_raw ⟨[(['f'], ⟨[1], 0⟩), (['g'], ⟨[2], 0⟩)], []⟩ ['f'] ['g', '.', '1'] := by
  have hmv : move_file ⟨[(['f'], ⟨[1], 0⟩), (['g'], ⟨[2], 0⟩)], []⟩ ['f'] ['g'] false 5 =
      some (⟨[(['g'], ⟨[2], 0⟩), (['g', '.', '1'], ⟨[1], 0⟩)], []⟩, ['g', '.', '1']) := by
    rfl
  have H := move_file_no_clobber_safe _ _ _ _ _ _ hmv
  exact ⟨hmv, H.1, H.2.2.2⟩

/-! ### Streams, the atomic file transformer, and the dispatcher -/

/-- A content transformer: bytes in, (bytes, counts) out, with the
process-wide tally threaded (the closures built by `rewrite_file` update the
tally through `multi_replace`). -/
abbrev TransformFunc := List Byte → Tally → List Byte × MatchCounts × Tally

/-- The content-transform closure built by `rewrite_file`:
`lambda contents: multi_replace(contents, patterns, ...)`. -/
def content_transform (patterns : List LitRule) : TransformFunc :=
  fun contents t =>
    let r := multi_replace_tally t contents patterns false
    (r.1.1, r.1.2, r.2)

/-- Iterating a binary stream line by line: split after each newline byte,
keeping the newline, with a final unterminated line included. -/
def lines_aux (cur : List Byte) : List Byte → List (List Byte)
  | [] => if cur = [] then [] else [cur.reverse]
  | b :: rest =>
    if b = 10 then (b :: cur).reverse :: lines_aux [] rest
    else lines_aux (b :: cur) rest

def byte_lines (l : List Byte) : List (List Byte) := lines_aux [] l

/-- `transform_stream(transform, stream_in, stream_out, by_line)`: in line
mode apply the transform to each raw line and concatenate the results,
summing the counts; in whole-file mode apply it once to the whole content. -/
def transform_stream (transform : Option TransformFunc) (input : List Byte)
    (by_line : Bool) (t : Tally) : List Byte × MatchCounts × Tally :=
  match transform with
  | none => (input, ⟨0, 0⟩, t)
  | some f =>
    if by_line then
      (byte_lines input).foldl
        (fun acc line =>
          let r := f line acc.2.2
          (acc.1 ++ r.1, acc.2.1.add r.2.1, r.2.2))
        (([] : List Byte), (⟨0, 0⟩ : MatchCounts), t)
    else
      let r := f input t
      (r.1, (MatchCounts.mk 0 0).add r.2.1, r.2.2)

/-- `os.path.dirname`: everything before the final slash, `[]` if none. -/
def dirname (p : Path) : Path :=
  ((p.reverse.dropWhile fun c => decide (c ≠ '/')).drop 1).reverse

/-- The chain of directories `os.makedirs` creates for `p`: every prefix
ending just before a slash, then `p` itself. -/
def dir_chain (p : Path) : List Path :=
  ((List.range p.length).filterMap fun i =>
    if p[i]? = some '/' then some (p.take i) else none) ++ [p]

def FS.add_dir (fs : FS) (q : Path) : FS :=
  if fs.dirs.contains q then fs else { fs with dirs := fs.dirs ++ [q] }

/-- `make_parent_dirs(path)`: `os.makedirs(os.path.dirname(path),
exist_ok=True)`.  (CPython raises on an empty dirname; repren's callers pass
paths inside directories, so the empty case is modelled as a no-op.) -/
def make_parent_dirs (fs : FS) (p : Path) : FS :=
  if dirname p = [] then fs else (dir_chain (dirname p)).foldl FS.add_dir fs

/-- I/O failures surfaced by the file transformer.  `fuel` marks exhaustion
of the bounded no-clobber search (an artifact of the bounded model; the
Python loop always terminates). -/
inductive IOErr where
  | missing_source (p : Path)
  | fuel
deriving DecidableEq, Repr

/-- `transform_file(transform, source_path, dest_path, orig_suffix,
temp_suffix, by_line, dry_run)`: create the temp file's parent directories,
read the source, stream the transform into the temp file (created without
truncation, as `os.open(..., O_WRONLY | O_CREAT)` does), then — outside dry
run, when the destination differs or a candidate match was found — move the
source to its backup (clobbering) and the temp into place (no-clobber);
otherwise delete the temp file.  Tally updates happen in every mode.  `now`
is the mtime given to the file created at the temp path. -/
def transform_file (transform : Option TransformFunc) (source dest : Path)
    (orig_suffix temp_suffix : Path) (by_line dry_run : Bool)
    (fs : FS) (t : Tally) (now fuel : Nat) :
    Except IOErr (FS × Tally × MatchCounts) :=
  match transform with
  | some tf =>
    let orig_path := source ++ orig_suffix
    let temp_path := dest ++ temp_suffix
    let fs1 := make_parent_dirs fs temp_path
    match fs1.lookup source with
    | none => Except.error (IOErr.missing_source source)
    | some src_file =>
      let res := transform_stream (some tf) src_file.content by_line t
      let new_content :=
        match fs1.lookup temp_path with
        | some old => res.1 ++ old.content.drop res.1.length
        | none => res.1
      let fs2 := fs1.set_file temp_path ⟨new_content, now⟩
      let step : Except IOErr FS :=
        if ¬ dry_run ∧ (dest ≠ source ∨ res.2.1.found > 0) then
          match move_file fs2 source orig_path true fuel with
          | none => Except.error IOErr.fuel
          | some (fs3, _) =>
            match move_file fs3 temp_path dest false fuel with
            | none => Except.error IOErr.fuel
            | some (fs4, _) => Except.ok fs4
        else Except.ok (fs2.remove_file temp_path)
      match step with
      | Except.error e => Except.error e
      | Except.ok fsf =>
        let t1 := res.2.2
        let t2 := { t1 with files := t1.files + 1 }
        let t3 := if res.2.1.found > 0 then
            { t2 with files_rewritten := t2.files_rewritten + 1 } else t2
        let t4 := if dest ≠ source then { t3 with renames := t3.renames + 1 } else t3
        let t5 := if res.2.1.found > 0 ∨ dest ≠ source then
            { t4 with files_changed := t4.files_changed + 1 } else t4
        Except.ok (fsf, t5, res.2.1)
  | none =>
    if dest ≠ source then
      if dry_run then
        Except.ok (fs,
          { t with files := t.files + 1, renames := t.renames + 1,
                   files_changed := t.files_changed + 1 }, ⟨0, 0⟩)
      else
        match move_file (make_parent_dirs fs dest) source dest false fuel with
        | none => Except.error IOErr.fuel
        | some (fs2, _) =>
          Except.ok (fs2,
            { t with files := t.files + 1, renames := t.renames + 1,
                     files_changed := t.files_changed + 1 }, ⟨0, 0⟩)
    else Except.ok (fs, t, ⟨0, 0⟩)

/-- Path encoding for matching, `path.encode("utf-8")` (ASCII range). -/
def encode_path (p : Path) : List Byte := p.map Char.toNat

def decode_path (b : List Byte) : Path := b.map Char.ofNat

def TEMP_SUFFIX : Path := ['.', 'r', 'e', 'p', 'r', 'e', 'n', '.', 't', 'm', 'p']

def BACKUP_SUFFIX : Path := ['.', 'o', 'r', 'i', 'g']

/-- `rewrite_file(path, patterns, ...)`: compute the destination by running
the patterns over the path bytes (path mode) when renaming, build the
content-transform closure when rewriting, and hand both to
`transform_file`.  (The log calls are omitted.) -/
def rewrite_file (path : Path) (patterns : List LitRule)
    (do_renames do_contents : Bool) (backup_suffix : Path)
    (by_line dry_run : Bool) (fs : FS) (t : Tally) (now fuel : Nat) :
    Except IOErr (FS × Tally) :=
  let pr := if do_renames then multi_replace_tally t (encode_path path) patterns true
            else ((encode_path path, ⟨0, 0⟩), t)
  let dest := decode_path pr.1.1
  let transform := if do_contents then some (content_transform patterns) else none
  match transform_file transform path dest backup_suffix TEMP_SUFFIX by_line dry_run
      fs pr.2 now fuel with
  | Except.error e => Except.error e
  | Except.ok (fs', t', _) => Except.ok (fs', t')

/-- The per-file loop of `rewrite_files` over the (already walked, sorted)
path list.  There is no exception handler around the loop body in the
source, so an error propagates out of the whole fold. -/
def rewrite_files (paths : List Path) (patterns : List LitRule)
    (do_renames do_contents : Bool) (backup_suffix : Path)
    (by_line dry_run : Bool) (fs : FS) (t : Tally) (now fuel : Nat) :
    Except IOErr (FS × Tally) :=
  paths.foldlM
    (fun st p => rewrite_file p patterns do_renames do_contents backup_suffix
      by_line dry_run st.1 st.2 now fuel)
    (fs, t)

/-! ### The backup manager (`undo_backups`) -/

/-- The per-backup loop body of `undo_backups`: strip the suffix to get the
original path `X`, predict the renamed path `Y` by running the patterns over
`X` (path mode), skip (no action) when the target does not exist or the
backup is strictly newer, otherwise move the backup over `X` and, if the
prediction differs from `X` and still exists, remove it.  The returned flag
is `true` when the file was counted restored, `false` when counted
skipped. -/
def undo_step (fs : FS) (patterns : List LitRule) (backup_path : Path)
    (backup_suffix : Path) (dry_run : Bool) : FS × Bool :=
  let original_path := backup_path.take (backup_path.length - backup_suffix.length)
  let predicted_path := decode_path (multi_replace (encode_path original_path) patterns).1
  let target_path := if predicted_path = original_path then original_path else predicted_path
  if fs.path_exists target_path then
    if fs.getmtime backup_path > fs.getmtime target_path then (fs, false)
    else if dry_run then (fs, true)
    else
      let fs1 := fs.move_raw backup_path original_path
      let fs2 := if predicted_path ≠ original_path ∧ fs1.path_exists predicted_path then
          fs1.remove_file predicted_path else fs1
      (fs2, true)
  else (fs, false)

/-! ### Frame lemmas for the filesystem model -/

lemma find?_filter_ne (l : List (Path × FSFile)) (p q : Path) (h : q ≠ p) :
    (l.filter fun pr => decide (pr.1 ≠ p)).find? (fun pr => decide (pr.1 = q)) =
      l.find? fun pr => decide (pr.1 = q) := by
  induction l with
  | nil => rfl
  | cons a tl ih =>
    by_cases hap : a.1 = p
    · rw [List.filter_cons_of_neg (by simpa using hap), List.find?_cons_of_neg _ (by
        simp only [decide_eq_true_iff]
        intro hc
        exact h (hc ▸ hap ▸ rfl))]
      exact ih
    · rw [List.filter_cons_of_pos (by simpa using hap)]
      by_cases haq : a.1 = q
      · rw [List.find?_cons_of_pos _ (by simpa using haq),
          List.find?_cons_of_pos _ (by simpa using haq)]
      · rw [List.find?_cons_of_neg _ (by simpa using haq),
          List.find?_cons_of_neg _ (by simpa using haq)]
        exact ih

lemma FS.lookup_remove_file_ne (fs : FS) (p q : Path) (h : q ≠ p) :
    (fs.remove_file p).lookup q = fs.lookup q := by
  unfold FS.lookup FS.remove_file
  rw [find?_filter_ne fs.files p q h]

lemma FS.lookup_set_file_ne (fs : FS) (p q : Path) (f : FSFile) (h : q ≠ p) :
    (fs.set_file p f).lookup q = fs.lookup q := by
  unfold FS.set_file FS.lookup FS.remove_file
  simp only [List.find?_append]
  rw [find?_filter_ne fs.files p q h]
  rw [show ([(p, f)].find? fun pr => decide (pr.1 = q)) = none from by
    simp [List.find?_cons, Ne.symm h]]
  cases (fs.files.find? fun pr => decide (pr.1 = q)) <;> rfl

lemma FS.remove_file_of_lookup_none (fs : FS) (p : Path) (h : fs.lookup p = none) :
    fs.remove_file p = fs := by
  have hfind : (fs.files.find? fun pr => decide (pr.1 = p)) = none := by
    unfold FS.lookup at h
    exact Option.map_eq_none'.mp h
  have hall := List.find?_eq_none.mp hfind
  have hfilter : fs.files.filter (fun pr => decide (pr.1 ≠ p)) = fs.files :=
    List.filter_eq_self.mpr fun pr hpr => by simpa using hall pr hpr
  unfold FS.remove_file
  rw [hfilter]

lemma FS.dirs_remove_file (fs : FS) (p : Path) : (fs.remove_file p).dirs = fs.dirs := rfl

lemma FS.dirs_set_file (fs : FS) (p : Path) (f : FSFile) :
    (fs.set_file p f).dirs = fs.dirs := rfl

lemma FS.dirs_move_raw (fs : FS) (a b : Path) : (fs.move_raw a b).dirs = fs.dirs := by
  unfold FS.move_raw
  cases fs.lookup a <;> rfl

lemma FS.lookup_move_raw_ne (fs : FS) (a b q : Path) (h1 : q ≠ a) (h2 : q ≠ b) :
    (fs.move_raw a b).lookup q = fs.lookup q := by
  unfold FS.move_raw
  cases fs.lookup a with
  | none => rfl
  | some f =>
    rw [FS.lookup_set_file_ne _ _ _ _ h2, FS.lookup_remove_file_ne _ _ _ h1]

lemma FS.path_exists_move_raw_ne (fs : FS) (a b q : Path) (h1 : q ≠ a) (h2 : q ≠ b) :
    (fs.move_raw a b).path_exists q = fs.path_exists q := by
  unfold FS.path_exists FS.is_file
  rw [FS.lookup_move_raw_ne fs a b q h1 h2, FS.dirs_move_raw]

lemma FS.files_make_parent_dirs (fs : FS) (p : Path) :
    (make_parent_dirs fs p).files = fs.files := by
  unfold make_parent_dirs
  split
  · rfl
  · generalize dir_chain (dirname p) = ds
    induction ds generalizing fs with
    | nil => rfl
    | cons d tl ih =>
      rw [List.foldl_cons]
      rw [ih (fs.add_dir d)]
      unfold FS.add_dir
      split <;> rfl

lemma FS.lookup_make_parent_dirs (fs : FS) (p q : Path) :
    (make_parent_dirs fs p).lookup q = fs.lookup q := by
  unfold FS.lookup
  rw [FS.files_make_parent_dirs]

/-! ### Claim theorems: error propagation (C9) -/

/-- C9 (amended).  There is no per-file error recovery in the engine: an I/O
error raised while transforming one file of a multi-file run propagates out
of `rewrite_files` unchanged and aborts the whole run, so the remaining
files in the walk are not processed.  (The exit-versus-raise choice of the
`_fail` handler affects only how pattern-parsing failures are reported, not
file processing.) -/
theorem rewrite_files_error_aborts (p : Path) (rest : List Path)
    (patterns : List LitRule) (do_renames do_contents : Bool)
    (backup_suffix : Path) (by_line dry_run : Bool) (fs : FS) (t : Tally)
    (now fuel : Nat) (e : IOErr)
    (h : rewrite_file p patterns do_renames do_contents backup_suffix by_line dry_run
      fs t now fuel = Except.error e) :
    rewrite_files (p :: rest) patterns do_renames do_contents backup_suffix by_line
      dry_run fs t now fuel = Except.error e := by
  unfold rewrite_files
  rw [List.foldlM_cons]
  rw [show (rewrite_file p patterns do_renames do_contents backup_suffix by_line
      dry_run fs t now fuel) = Except.error e from h]
  rfl

theorem rewrite_files_error_aborts_witness :
    (rewrite_file ['a'] [⟨[102], [103]⟩] false true BACKUP_SUFFIX false false
      ⟨[(['b'], ⟨[102], 0⟩)], []⟩ {} 7 9 = Except.error (IOErr.missing_source ['a'])) ∧
    rewrite_files [['a'], ['b']] [⟨[102], [103]⟩] false true BACKUP_SUFFIX false false
      ⟨[(['b'], ⟨[102], 0⟩)], []⟩ {} 7 9 = Except.error (IOErr.missing_source ['a']) :=
  ⟨rfl, rewrite_files_error_aborts ['a'] [['b']] [⟨[102], [103]⟩] false true
    BACKUP_SUFFIX false false ⟨[(['b'], ⟨[102], 0⟩)], []⟩ {} 7 9
    (IOErr.missing_source ['a']) rfl⟩

/-- C9 counterexample.  The claim says a per-file I/O error is logged and
the run continues with the next file.  It does not: with two files to
process where the first one's source is missing (unreadable), the run
returns the error and the second file — which on its own is processed
successfully — is never touched. -/
theorem rewrite_files_error_aborts_counterexample :
    rewrite_files [['a'], ['b']] [⟨[102], [103]⟩] false true BACKUP_SUFFIX false false
      ⟨[(['b'], ⟨[102], 0⟩)], []⟩ {} 7 9 = Except.error (IOErr.missing_source ['a']) ∧
    rewrite_files [['b']] [⟨[102], [103]⟩] false true BACKUP_SUFFIX false false
      ⟨[(['b'], ⟨[102], 0⟩)], []⟩ {} 7 9 =
      Except.ok (⟨[(['b', '.', 'o', 'r', 'i', 'g'], ⟨[102], 0⟩),
        (['b'], ⟨[103], 7⟩)], []⟩, ⟨1, 1, 1, 1, 1, 1, 0⟩) :=
  ⟨rfl, rfl⟩

/-! ### Claim theorems: undo (C8) -/

/-- C8.  For a backup file at `X + backup_suffix` processed by a real (not
dry-run) undo: the step restores nothing and counts a skip exactly when the
predicted renamed path `Y` (the rule set applied to `X` in path mode, which
is `X` itself when the rules leave the path unchanged) does not exist on
disk, or the backup's modification time is strictly newer than `Y`'s.
Otherwise it moves the backup over `X` (restoring original content at the
original name) and, when `Y` differs from `X`, removes `Y`. -/
theorem undo_step_spec (fs : FS) (patterns : List LitRule)
    (backup_path backup_suffix X Y : Path)
    (hX : X = backup_path.take (backup_path.length - backup_suffix.length))
    (hY : Y = decode_path (multi_replace (encode_path X) patterns).1) :
    ((undo_step fs patterns backup_path backup_suffix false).2 = false ↔
      fs.path_exists Y = false ∨ fs.getmtime backup_path > fs.getmtime Y) ∧
    ((undo_step fs patterns backup_path backup_suffix false).2 = false →
      (undo_step fs patterns backup_path backup_suffix false).1 = fs) ∧
    ((undo_step fs patterns backup_path backup_suffix false).2 = true →
      (undo_step fs patterns backup_path backup_suffix false).1 =
        if Y = X then fs.move_raw backup_path X
        else (fs.move_raw backup_path X).remove_file Y) := by
  unfold undo_step
  dsimp only
  rw [← hX, ← hY]
  have ht : (if Y = X then X else Y) = Y := by
    by_cases h : Y = X
    · simp [h]
    · simp [h]
  rw [ht]
  by_cases hex : fs.path_exists Y = true
  · rw [if_pos hex]
    by_cases hm : fs.getmtime backup_path > fs.getmtime Y
    · rw [if_pos hm]
      refine ⟨?_, fun _ => rfl, ?_⟩
      · simp [hm]
      · intro hc
        cases hc
    · rw [if_neg hm, if_neg (by simp)]
      refine ⟨?_, ?_, ?_⟩
      · constructor
        · intro hc; cases hc
        · intro hc
          rcases hc with hc | hc
          · rw [hex] at hc; cases hc
          · exact absurd hc hm
      · intro hc; cases hc
      · intro _
        by_cases hyx : Y = X
        · rw [if_pos hyx]
          have : ¬ (Y ≠ X ∧ (fs.move_raw backup_path X).path_exists Y = true) := by
            intro hc
            exact hc.1 hyx
          rw [if_neg this]
        · rw [if_neg hyx]
          by_cases hpe : (fs.move_raw backup_path X).path_exists Y = true
          · rw [if_pos ⟨hyx, hpe⟩]
          · rw [if_neg (by intro hc; exact hpe hc.2)]
            have hnone : (fs.move_raw backup_path X).lookup Y = none := by
              unfold FS.path_exists FS.is_file at hpe
              rcases ho : (fs.move_raw backup_path X).lookup Y with _ | f
              · rfl
              · rw [Bool.or_eq_true] at hpe
                exact absurd (Or.inl (by rw [ho]; rfl)) hpe
            rw [FS.remove_file_of_lookup_none _ _ hnone]
  · rw [if_neg hex]
    refine ⟨?_, fun _ => rfl, ?_⟩
    · simp only [eq_self_iff_true, true_iff]
      left
      simpa using hex
    · intro hc
      cases hc

theorem undo_step_spec_witness :
    (['x'] =
      (['x', '.', 'o', 'r', 'i', 'g'] : Path).take
        ((['x', '.', 'o', 'r', 'i', 'g'] : Path).length - BACKUP_SUFFIX.length) ∧
     ['y'] = decode_path (multi_replace (encode_path ['x']) [⟨[120], [121]⟩]).1) ∧
    (((undo_step ⟨[(['x', '.', 'o', 'r', 'i', 'g'], ⟨[1], 5⟩), (['y'], ⟨[2], 9⟩)], []⟩
        [⟨[120], [121]⟩] ['x', '.', 'o', 'r', 'i', 'g'] BACKUP_SUFFIX false).2 = false ↔
      FS.path_exists ⟨[(['x', '.', 'o', 'r', 'i', 'g'], ⟨[1], 5⟩), (['y'], ⟨[2], 9⟩)], []⟩
          ['y'] = false ∨
        FS.getmtime ⟨[(['x', '.', 'o', 'r', 'i', 'g'], ⟨[1], 5⟩), (['y'], ⟨[2], 9⟩)], []⟩
            ['x', '.', 'o', 'r', 'i', 'g'] >
          FS.getmtime ⟨[(['x', '.', 'o', 'r', 'i', 'g'], ⟨[1], 5⟩), (['y'], ⟨[2], 9⟩)], []⟩
            ['y']) ∧
    ((undo_step ⟨[(['x', '.', 'o', 'r', 'i', 'g'], ⟨[1], 5⟩), (['y'], ⟨[2], 9⟩)], []⟩
        [⟨[120], [121]⟩] ['x', '.', 'o', 'r', 'i', 'g'] BACKUP_SUFFIX false).2 = false →
      (undo_step ⟨[(['x', '.', 'o', 'r', 'i', 'g'], ⟨[1], 5⟩), (['y'], ⟨[2], 9⟩)], []⟩
        [⟨[120], [121]⟩] ['x', '.', 'o', 'r', 'i', 'g'] BACKUP_SUFFIX false).1 =
        ⟨[(['x', '.', 'o', 'r', 'i', 'g'], ⟨[1], 5⟩), (['y'], ⟨[2], 9⟩)], []⟩) ∧
    ((undo_step ⟨[(['x', '.', 'o', 'r', 'i', 'g'], ⟨[1], 5⟩), (['y'], ⟨[2], 9⟩)], []⟩
        [⟨[120], [121]⟩] ['x', '.', 'o', 'r', 'i', 'g'] BACKUP_SUFFIX false).2 = true →
      (undo_step ⟨[(['x', '.', 'o', 'r', 'i', 'g'], ⟨[1], 5⟩), (['y'], ⟨[2], 9⟩)], []⟩
        [⟨[120], [121]⟩] ['x', '.', 'o', 'r', 'i', 'g'] BACKUP_SUFFIX false).1 =
        if (['y'] : Path) = ['x'] then
          FS.move_raw ⟨[(['x', '.', 'o', 'r', 'i', 'g'], ⟨[1], 5⟩), (['y'], ⟨[2], 9⟩)], []⟩
            ['x', '.', 'o', 'r', 'i', 'g'] ['x']
        else
          (FS.move_raw ⟨[(['x', '.', 'o', 'r', 'i', 'g'], ⟨[1], 5⟩), (['y'], ⟨[2], 9⟩)], []⟩
            ['x', '.', 'o', 'r', 'i', 'g'] ['x']).remove_file ['y'])) :=
  ⟨⟨rfl, rfl⟩, undo_step_spec
    ⟨[(['x', '.', 'o', 'r', 'i', 'g'], ⟨[1], 5⟩), (['y'], ⟨[2], 9⟩)], []⟩
    [⟨[120], [121]⟩] ['x', '.', 'o', 'r', 'i', 'g'] BACKUP_SUFFIX ['x'] ['y'] rfl rfl⟩

/-! ### Claim theorems: dry run (C5) -/

lemma filter_of_lookup_none (fs : FS) (p : Path) (h : fs.lookup p = none) :
    fs.files.filter (fun pr => decide (pr.1 ≠ p)) = fs.files := by
  have hfind : (fs.files.find? fun pr => decide (pr.1 = p)) = none := by
    unfold FS.lookup at h
    exact Option.map_eq_none'.mp h
  have hall := List.find?_eq_none.mp hfind
  exact List.filter_eq_self.mpr fun pr hpr => by simpa using hall pr hpr

/-- Creating a file at a fresh path and then removing it restores the file
table. -/
lemma FS.remove_set_fresh (fs : FS) (p : Path) (f : FSFile)
    (h : fs.lookup p = none) :
    ((fs.set_file p f).remove_file p).files = fs.files := by
  unfold FS.set_file FS.remove_file
  dsimp only
  rw [List.filter_append, filter_of_lookup_none fs p h]
  have : ([(p, f)].filter fun pr => decide (pr.1 ≠ p)) = [] := by simp
  rw [filter_of_lookup_none fs p h, this, List.append_nil]

/-- C5 (amended).  A dry run of the file transformer changes no file: with
the source readable and no stale temp file present, `transform_file` with
`dry_run=True` succeeds, leaves the file table bit-identical (the temp file
is created and deleted again), and produces exactly the tally and the
found/applied counts that a successful real run on the same state would
produce.  However, it is not entirely free of filesystem effects: the
parent directories of the temp path are created even in dry-run mode (the
directory set grows to that of `make_parent_dirs`), and a rename-only dry
run (`transform=None`) leaves the filesystem entirely untouched. -/
theorem transform_file_dry_run_frame (tf : TransformFunc)
    (source dest orig_suffix temp_suffix : Path) (by_line : Bool)
    (fs : FS) (t : Tally) (now fuel : Nat) (src_file : FSFile)
    (hsrc : fs.lookup source = some src_file)
    (htemp : fs.lookup (dest ++ temp_suffix) = none) :
    (∃ fs' t' c,
      transform_file (some tf) source dest orig_suffix temp_suffix by_line true
          fs t now fuel = Except.ok (fs', t', c) ∧
      fs'.files = fs.files ∧
      fs'.dirs = (make_parent_dirs fs (dest ++ temp_suffix)).dirs ∧
      ∀ fs2 t2 c2,
        transform_file (some tf) source dest orig_suffix temp_suffix by_line false
            fs t now fuel = Except.ok (fs2, t2, c2) → t2 = t' ∧ c2 = c) ∧
    ∃ t3, transform_file none source dest orig_suffix temp_suffix by_line true
        fs t now fuel = Except.ok (fs, t3, ⟨0, 0⟩) := by
  have hsrc1 : (make_parent_dirs fs (dest ++ temp_suffix)).lookup source =
      some src_file := by
    rw [FS.lookup_make_parent_dirs]; exact hsrc
  have htemp1 : (make_parent_dirs fs (dest ++ temp_suffix)).lookup
      (dest ++ temp_suffix) = none := by
    rw [FS.lookup_make_parent_dirs]; exact htemp
  constructor
  · unfold transform_file
    dsimp only
    rw [hsrc1, htemp1]
    dsimp only
    rw [if_neg (by intro hc; exact absurd rfl hc.1)]
    refine ⟨_, _, _, rfl, ?_, ?_, ?_⟩
    · rw [FS.remove_set_fresh _ _ _ htemp1, FS.files_make_parent_dirs]
    · rfl
    · intro fs2 t2 c2 h2
      split at h2
      · simp at h2
      · rcases Except.ok.inj h2 with h3
        exact ⟨(congrArg (fun x => x.2.1) h3).symm,
          (congrArg (fun x => x.2.2) h3).symm⟩
  · unfold transform_file
    dsimp only
    by_cases hds : dest ≠ source
    · rw [if_pos hds, if_pos rfl]
      exact ⟨_, rfl⟩
    · rw [if_neg hds]
      exact ⟨t, rfl⟩

theorem transform_file_dry_run_frame_witness :
    (FS.lookup ⟨[(['a', '/', 'f'], ⟨[102], 0⟩)], [['a']]⟩ ['a', '/', 'f'] =
        some ⟨[102], 0⟩ ∧
     FS.lookup ⟨[(['a', '/', 'f'], ⟨[102], 0⟩)], [['a']]⟩
        (['a', '/', 'f'] ++ TEMP_SUFFIX) = none) ∧
    ((∃ fs' t' c,
      transform_file (some (content_transform [⟨[102], [103]⟩])) ['a', '/', 'f']
          ['a', '/', 'f'] BACKUP_SUFFIX TEMP_SUFFIX false true
          ⟨[(['a', '/', 'f'], ⟨[102], 0⟩)], [['a']]⟩ {} 7 9 = Except.ok (fs', t', c) ∧
      fs'.files = (⟨[(['a', '/', 'f'], ⟨[102], 0⟩)], [['a']]⟩ : FS).files ∧
      fs'.dirs = (make_parent_dirs ⟨[(['a', '/', 'f'], ⟨[102], 0⟩)], [['a']]⟩
        (['a', '/', 'f'] ++ TEMP_SUFFIX)).dirs ∧
      ∀ fs2 t2 c2,
        transform_file (some (content_transform [⟨[102], [103]⟩])) ['a', '/', 'f']
            ['a', '/', 'f'] BACKUP_SUFFIX TEMP_SUFFIX false false
            ⟨[(['a', '/', 'f'], ⟨[102], 0⟩)], [['a']]⟩ {} 7 9 =
          Except.ok (fs2, t2, c2) → t2 = t' ∧ c2 = c) ∧
    ∃ t3, transform_file none ['a', '/', 'f'] ['a', '/', 'f'] BACKUP_SUFFIX
        TEMP_SUFFIX false true ⟨[(['a', '/', 'f'], ⟨[102], 0⟩)], [['a']]⟩ {} 7 9 =
      Except.ok (⟨[(['a', '/', 'f'], ⟨[102], 0⟩)], [['a']]⟩, t3, ⟨0, 0⟩)) :=
  ⟨⟨rfl, rfl⟩, transform_file_dry_run_frame (content_transform [⟨[102], [103]⟩])
    ['a', '/', 'f'] ['a', '/', 'f'] BACKUP_SUFFIX TEMP_SUFFIX false
    ⟨[(['a', '/', 'f'], ⟨[102], 0⟩)], [['a']]⟩ {} 7 9 ⟨[102], 0⟩ rfl rfl⟩

/-- C5 counterexample.  A dry run is not entirely free of filesystem
changes: transforming `a/f` with destination `b/f` (a rename into a new
directory) under `dry_run=True` creates the directory `b` (the temp path's
parent), which persists after the call — the tree is not bit-identical to
its pre-run state.  (This is the acknowledged TODO in `transform_file`,
GitHub issue 6.)  The file table and the tallies are nonetheless those of a
real run. -/
theorem transform_file_dry_run_counterexample :
    transform_file (some (content_transform [⟨[102], [103]⟩])) ['a', '/', 'f']
        ['b', '/', 'f'] BACKUP_SUFFIX TEMP_SUFFIX false true
        ⟨[(['a', '/', 'f'], ⟨[102], 0⟩)], [['a']]⟩ {} 7 9 =
      Except.ok (⟨[(['a', '/', 'f'], ⟨[102], 0⟩)], [['a'], ['b']]⟩,
        ⟨1, 1, 1, 1, 1, 1, 1⟩, ⟨1, 1⟩) ∧
    (⟨[(['a', '/', 'f'], ⟨[102], 0⟩)], [['a'], ['b']]⟩ : FS) ≠
      ⟨[(['a', '/', 'f'], ⟨[102], 0⟩)], [['a']]⟩ :=
  ⟨rfl, by decide⟩

/-! ### Swap correctness (C3)

The claim compares `multi_replace` on the two-rule set
`[(a, b), (b, a)]` against the spec's description: the input with every
non-overlapping occurrence of `a` replaced by `b` and of `b` replaced by
`a`, simultaneously.  The latter is modelled (from the spec's words) as a
greedy left-to-right scan. -/

/-- Modelled from the spec: "running `(a,b), (b,a)` on any input yields the
input with every non-overlapping occurrence of `a` replaced by `b` and of
`b` replaced by `a`, simultaneously" — the greedy left-to-right scan
replacing each leftmost non-overlapping occurrence.  `fuel` bounds the
recursion; `length + 1` always suffices for nonempty `a`, `b`. -/
def spec_swap_aux (a b : List Byte) : Nat → List Byte → List Byte
  | 0, l => l
  | fuel + 1, l =>
    if a.isPrefixOf l then b ++ spec_swap_aux a b fuel (l.drop a.length)
    else if b.isPrefixOf l then a ++ spec_swap_aux a b fuel (l.drop b.length)
    else
      match l with
      | [] => []
      | c :: rest => c :: spec_swap_aux a b fuel rest

def spec_swap (a b input : List Byte) : List Byte :=
  spec_swap_aux a b (input.length + 1) input

lemma spec_swap_aux_succ (a b : List Byte) (fuel : Nat) (l : List Byte) :
    spec_swap_aux a b (fuel + 1) l =
      if a.isPrefixOf l then b ++ spec_swap_aux a b fuel (l.drop a.length)
      else if b.isPrefixOf l then a ++ spec_swap_aux a b fuel (l.drop b.length)
      else
        match l with
        | [] => []
        | c :: rest => c :: spec_swap_aux a b fuel rest := rfl

/-- The claim's side condition that `a` and `b` are non-overlapping
literals on the input: no occurrence of `a` overlaps an occurrence of
`b`. -/
def swap_disjoint (a b input : List Byte) : Prop :=
  ∀ p < input.length, ∀ q < input.length,
    a.isPrefixOf (input.drop p) = true → b.isPrefixOf (input.drop q) = true →
      p + a.length ≤ q ∨ q + b.length ≤ p

instance (a b input : List Byte) : Decidable (swap_disjoint a b input) := by
  unfold swap_disjoint
  infer_instance

/-- The matches reported by one finditer scan are chained left to right:
each ends no later than the next begins. -/
lemma finditer_aux_chain (pat input : List Byte) :
    ∀ fuel p, (finditer_aux pat input p fuel).Pairwise fun x y => x.2 ≤ y.1 := by
  intro fuel
  induction fuel with
  | zero => intro p; simp [finditer_aux]
  | succ fuel ih =>
    intro p
    rw [finditer_aux]
    split
    · exact List.Pairwise.nil
    split
    · refine List.pairwise_cons.mpr ⟨?_, ih _⟩
      intro y hy
      have := (finditer_aux_bounds pat input fuel _ y hy).1
      have hmax : pat.length ≤ max pat.length 1 := Nat.le_max_left ..
      omega
    split
    · exact List.Pairwise.nil
    · exact ih _

/-- Completeness of the finditer scan: any raw occurrence of the (nonempty)
pattern is covered by some reported match. -/
lemma finditer_aux_cover (pat input : List Byte) (hpat : pat ≠ []) :
    ∀ fuel p q, p ≤ q → input.length + 2 - p ≤ fuel →
      pat.isPrefixOf (input.drop q) = true →
      ∃ pr ∈ finditer_aux pat input p fuel, pr.1 ≤ q ∧ q < pr.2 := by
  have hlen : 1 ≤ pat.length := by
    rcases pat with _ | ⟨x, xs⟩
    · exact absurd rfl hpat
    · simp
  intro fuel
  induction fuel with
  | zero =>
    intro p q hpq hfuel hq
    exfalso
    rw [List.drop_eq_nil_of_le (by omega)] at hq
    rcases pat with _ | ⟨x, xs⟩
    · exact hpat rfl
    · simp [List.isPrefixOf] at hq
  | succ fuel ih =>
    intro p q hpq hfuel hq
    have hqlen : q + pat.length ≤ input.length := by
      have := (List.isPrefixOf_iff_prefix.mp hq).length_le
      rw [List.length_drop] at this
      by_cases hql : q ≤ input.length
      · omega
      · rw [show input.drop q = [] from List.drop_eq_nil_of_le (by omega)] at hq
        rcases pat with _ | ⟨x, xs⟩
        · exact absurd rfl hpat
        · simp [List.isPrefixOf] at hq
    rw [finditer_aux]
    split
    next hp => omega
    next hp =>
    split
    next hpre =>
      by_cases hcov : q < p + pat.length
      · exact ⟨(p, p + pat.length), List.mem_cons_self .., hpq, hcov⟩
      · have hrec := ih (p + max pat.length 1) q (by omega) (by omega) hq
        rcases hrec with ⟨pr, hpr, h1, h2⟩
        exact ⟨pr, List.mem_cons_of_mem _ hpr, h1, h2⟩
    next hpre =>
      split
      next hpl =>
        exfalso
        rcases Nat.eq_or_lt_of_le hpq with rfl | hlt
        · rw [hq] at hpre; exact hpre rfl
        · omega
      next hpl =>
        rcases Nat.eq_or_lt_of_le hpq with rfl | hlt
        · rw [hq] at hpre; exact absurd rfl hpre
        · exact ih (p + 1) q (by omega) (by omega) hq

lemma finditer_cover (pat input : List Byte) (hpat : pat ≠ []) (q : Nat)
    (hq : pat.isPrefixOf (input.drop q) = true) :
    ∃ pr ∈ finditer pat input, pr.1 ≤ q ∧ q < pr.2 :=
  finditer_aux_cover pat input hpat (input.length + 2) 0 q (Nat.zero_le _)
    (by omega) hq

/-- The candidate list for the two-rule swap set. -/
lemma collect_swap (a b input : List Byte) :
    collect_matches input [⟨a, b⟩, ⟨b, a⟩] =
      ((finditer a input).map fun pr => ⟨pr.1, pr.2, b⟩) ++
        ((finditer b input).map fun pr => ⟨pr.1, pr.2, a⟩) := by
  unfold collect_matches
  simp [List.flatMap_cons]

/-- Under the claim's side condition all swap candidates are pairwise
non-overlapping. -/
lemma swap_cands_pairwise (a b input : List Byte) (ha : a ≠ []) (hb : b ≠ [])
    (hdisj : swap_disjoint a b input) :
    (collect_matches input [⟨a, b⟩, ⟨b, a⟩]).Pairwise
      fun x y => overlap x y = false := by
  have hlena : 1 ≤ a.length := by
    rcases a with _ | _
    · exact absurd rfl ha
    · simp
  have hlenb : 1 ≤ b.length := by
    rcases b with _ | _
    · exact absurd rfl hb
    · simp
  rw [collect_swap]
  rw [List.pairwise_append]
  refine ⟨?_, ?_, ?_⟩
  · rw [List.pairwise_map]
    refine (finditer_aux_chain a input _ 0).imp ?_
    intro x y hxy
    rw [overlap_false_iff]
    right
    exact hxy
  · rw [List.pairwise_map]
    refine (finditer_aux_chain b input _ 0).imp ?_
    intro x y hxy
    rw [overlap_false_iff]
    right
    exact hxy
  · intro x hx y hy
    rcases List.mem_map.mp hx with ⟨pa, hpa, rfl⟩
    rcases List.mem_map.mp hy with ⟨pb, hpb, rfl⟩
    rcases finditer_aux_bounds a input _ _ pa hpa with ⟨_, hea, hba, hpra⟩
    rcases finditer_aux_bounds b input _ _ pb hpb with ⟨_, heb, hbb, hprb⟩
    have hplt : pa.1 < input.length := by omega
    have hqlt : pb.1 < input.length := by omega
    have := hdisj pa.1 hplt pb.1 hqlt hpra hprb
    rw [overlap_false_iff]
    dsimp only
    omega

/-- When the candidates are pairwise non-overlapping the resolver drops
nothing: every candidate is retained. -/
lemma resolver_keeps_all :
    ∀ (l acc : List RMatch),
      ((acc ++ l).Pairwise fun x y => overlap x y = false) →
      ∀ x ∈ acc ++ l, x ∈ l.foldl resolver_step acc := by
  intro l
  induction l with
  | nil =>
    intro acc _ x hx
    rw [List.append_nil] at hx
    exact hx
  | cons m l' ih =>
    intro acc hpw x hx
    have hacc_m : ∀ p ∈ acc, overlap p m = false := by
      intro p hp
      exact ((List.pairwise_append.mp hpw).2.2) p hp m (List.mem_cons_self ..)
    have hpred_false : ((acc.takeWhile fun z => decide (z.s < m.s)).getLast?.elim false
        fun p => overlap p m) = false := by
      rcases hh : (acc.takeWhile fun z => decide (z.s < m.s)).getLast? with _ | p
      · rw [hh]; rfl
      · have hp : p ∈ acc :=
          List.takeWhile_subset _ (List.mem_of_mem_getLast? hh)
        rw [hh]
        simp [hacc_m p hp]
    have hsucc_false : ((acc.dropWhile fun z => decide (z.s < m.s)).head?.elim false
        fun n => overlap n m) = false := by
      rcases hh : (acc.dropWhile fun z => decide (z.s < m.s)).head? with _ | n
      · rw [hh]; rfl
      · have hn : n ∈ acc :=
          List.dropWhile_subset _ (List.mem_of_mem_head? hh)
        rw [hh]
        simp [hacc_m n hn]
    have hins : resolver_step acc m =
        (acc.takeWhile fun z => decide (z.s < m.s)) ++
          m :: (acc.dropWhile fun z => decide (z.s < m.s)) := by
      rw [resolver_step_parts, hpred_false, hsucc_false]
      simp
    have hperm : (resolver_step acc m).Perm (acc ++ [m]) := by
      rw [hins]
      have h1 : ((acc.takeWhile fun z => decide (z.s < m.s)) ++
          m :: (acc.dropWhile fun z => decide (z.s < m.s))).Perm (m :: acc) := by
        have h2 : ((acc.takeWhile fun z => decide (z.s < m.s)) ++
            m :: (acc.dropWhile fun z => decide (z.s < m.s))).Perm
            (m :: ((acc.takeWhile fun z => decide (z.s < m.s)) ++
              (acc.dropWhile fun z => decide (z.s < m.s)))) := List.perm_middle
        rwa [List.takeWhile_append_dropWhile] at h2
      exact h1.trans (List.perm_append_singleton ..).symm
    have hpw' : ((resolver_step acc m ++ l').Pairwise fun x y => overlap x y = false) := by
      have h1 : ((acc ++ [m]) ++ l').Pairwise fun x y => overlap x y = false := by
        rw [← List.append_cons]
        exact hpw
      refine ((hperm.append_right l').pairwise_iff ?_).mpr h1
      intro u v huv
      rw [overlap_comm]
      exact huv
    have hx' : x ∈ resolver_step acc m ++ l' := by
      rcases List.mem_append.mp hx with h | h
      · exact List.mem_append.mpr (Or.inl (resolver_step_sub acc m x h))
      · rcases List.mem_cons.mp h with rfl | h
        · refine List.mem_append.mpr (Or.inl ?_)
          rw [hins]
          exact List.mem_append.mpr (Or.inr (List.mem_cons_self ..))
        · exact List.mem_append.mpr (Or.inr h)
    rw [List.foldl_cons]
    exact ih (resolver_step acc m) hpw' x hx'

/-- The splice of a sorted, disjoint, complete selection of `a`/`b`
occurrences equals the spec's greedy swap scan. -/
lemma splice_eq_spec_swap (a b input : List Byte) (ha : a ≠ []) (hb : b ≠ [])
    (hexcl : ∀ q, a.isPrefixOf (input.drop q) = true →
      b.isPrefixOf (input.drop q) = true → False) :
    ∀ fuel p M,
      input.length + 1 - p ≤ fuel →
      (M.Pairwise fun x y => x.e ≤ y.s) →
      (∀ m ∈ M, p ≤ m.s) →
      (∀ m ∈ M,
        (m.e = m.s + a.length ∧ a.isPrefixOf (input.drop m.s) = true ∧ m.repl = b) ∨
        (m.e = m.s + b.length ∧ b.isPrefixOf (input.drop m.s) = true ∧ m.repl = a)) →
      (∀ m ∈ M, m.s < m.e ∧ m.e ≤ input.length) →
      (∀ q, p ≤ q →
        (a.isPrefixOf (input.drop q) = true ∨ b.isPrefixOf (input.drop q) = true) →
        ∃ m ∈ M, m.s ≤ q ∧ q < m.e) →
      apply_replacements_from input p M = spec_swap_aux a b fuel (input.drop p) := by
  have hlena : 1 ≤ a.length := by
    rcases a with _ | _
    · exact absurd rfl ha
    · simp
  have hlenb : 1 ≤ b.length := by
    rcases b with _ | _
    · exact absurd rfl hb
    · simp
  have hnil_a : ¬ a.isPrefixOf ([] : List Byte) = true := by
    rcases a with _ | _
    · exact absurd rfl ha
    · simp [List.isPrefixOf]
  have hnil_b : ¬ b.isPrefixOf ([] : List Byte) = true := by
    rcases b with _ | _
    · exact absurd rfl hb
    · simp [List.isPrefixOf]
  intro fuel
  induction fuel with
  | zero =>
    intro p M hfuel hsort hlb hocc hbounds hcover
    rcases M with _ | ⟨m, M'⟩
    · rfl
    · exfalso
      have h1 := hlb m (List.mem_cons_self ..)
      have h2 := hbounds m (List.mem_cons_self ..)
      omega
  | succ fuel ihf =>
    intro p M hfuel hsort hlb hocc hbounds hcover
    rcases M with _ | ⟨m, M'⟩
    · have hnoa : ¬ a.isPrefixOf (input.drop p) = true := by
        intro hc
        rcases hcover p (Nat.le_refl _) (Or.inl hc) with ⟨m, hm, _⟩
        cases hm
      have hnob : ¬ b.isPrefixOf (input.drop p) = true := by
        intro hc
        rcases hcover p (Nat.le_refl _) (Or.inr hc) with ⟨m, hm, _⟩
        cases hm
      rw [spec_swap_aux_succ, if_neg hnoa, if_neg hnob]
      by_cases hplen : p < input.length
      · rw [show input.drop p = input[p] :: input.drop (p + 1) from
          List.drop_eq_getElem_cons hplen]
        dsimp only
        have hrec := ihf (p + 1) [] (by omega) List.Pairwise.nil (by simp)
          (by simp) (by simp) (fun q hq hraw => by
            rcases hcover q (by omega) hraw with ⟨m, hm, _⟩
            cases hm)
        have hLHS : apply_replacements_from input p ([] : List RMatch) =
            input[p] :: apply_replacements_from input (p + 1) [] := by
          show input.drop p = input[p] :: input.drop (p + 1)
          exact List.drop_eq_getElem_cons hplen
        rw [hLHS, hrec]
      · have hdrop : input.drop p = [] := List.drop_eq_nil_of_le (by omega)
        show input.drop p = _
        rw [hdrop]
    · rcases Nat.eq_or_lt_of_le (hlb m (List.mem_cons_self ..)) with hms | hms
      · -- the selection has a match starting exactly at p
        have hmb := hbounds m (List.mem_cons_self ..)
        have hM'lb : ∀ x ∈ M', m.e ≤ x.s := (List.pairwise_cons.mp hsort).1
        have hcover' : ∀ q, m.e ≤ q →
            (a.isPrefixOf (input.drop q) = true ∨ b.isPrefixOf (input.drop q) = true) →
            ∃ x ∈ M', x.s ≤ q ∧ q < x.e := by
          intro q hq hraw
          rcases hcover q (by omega) hraw with ⟨x, hx, hle, hlt⟩
          rcases List.mem_cons.mp hx with rfl | hx
          · omega
          · exact ⟨x, hx, hle, hlt⟩
        rcases hocc m (List.mem_cons_self ..) with ⟨he, hpre, hrepl⟩ | ⟨he, hpre, hrepl⟩
        · rw [spec_swap_aux_succ, if_pos (by rw [hms]; exact hpre)]
          have hLHS : apply_replacements_from input p (m :: M') =
              m.repl ++ apply_replacements_from input m.e M' := by
            show extract input p m.s ++ m.repl ++ _ = _
            rw [← hms]
            simp [extract]
          rw [hLHS, hrepl]
          congr 1
          rw [List.drop_drop]
          rw [show p + a.length = m.e from by omega]
          exact ihf m.e M' (by omega) (List.pairwise_cons.mp hsort).2 hM'lb
            (fun x hx => hocc x (List.mem_cons_of_mem _ hx))
            (fun x hx => hbounds x (List.mem_cons_of_mem _ hx)) hcover'
        · have hnoa : ¬ a.isPrefixOf (input.drop p) = true := by
            intro hc
            exact hexcl p hc (by rw [hms]; exact hpre)
          rw [spec_swap_aux_succ, if_neg hnoa, if_pos (by rw [hms]; exact hpre)]
          have hLHS : apply_replacements_from input p (m :: M') =
              m.repl ++ apply_replacements_from input m.e M' := by
            show extract input p m.s ++ m.repl ++ _ = _
            rw [← hms]
            simp [extract]
          rw [hLHS, hrepl]
          congr 1
          rw [List.drop_drop]
          rw [show p + b.length = m.e from by omega]
          exact ihf m.e M' (by omega) (List.pairwise_cons.mp hsort).2 hM'lb
            (fun x hx => hocc x (List.mem_cons_of_mem _ hx))
            (fun x hx => hbounds x (List.mem_cons_of_mem _ hx)) hcover'
      · -- no match starts at p: copy one byte and continue
        have hmb := hbounds m (List.mem_cons_self ..)
        have hplen : p < input.length := by omega
        have hnoraw : ¬ (a.isPrefixOf (input.drop p) = true ∨
            b.isPrefixOf (input.drop p) = true) := by
          intro hraw
          rcases hcover p (Nat.le_refl _) hraw with ⟨x, hx, hle, hlt⟩
          have hxp : x.s = p := Nat.le_antisymm hle (hlb x hx)
          rcases List.mem_cons.mp hx with rfl | hx'
          · omega
          · have := (List.pairwise_cons.mp hsort).1 x hx'
            omega
        rw [spec_swap_aux_succ, if_neg (fun hc => hnoraw (Or.inl hc)),
          if_neg (fun hc => hnoraw (Or.inr hc))]
        rw [show input.drop p = input[p] :: input.drop (p + 1) from
          List.drop_eq_getElem_cons hplen]
        dsimp only
        have hext : extract input p m.s = input[p] :: extract input (p + 1) m.s := by
          unfold extract
          rw [List.drop_eq_getElem_cons hplen,
            show m.s - p = (m.s - (p + 1)) + 1 from by omega, List.take_succ_cons]
        have hLHS : apply_replacements_from input p (m :: M') =
            input[p] :: apply_replacements_from input (p + 1) (m :: M') := by
          show extract input p m.s ++ m.repl ++ _ =
            input[p] :: (extract input (p + 1) m.s ++ m.repl ++ _)
          rw [hext, List.cons_append, List.cons_append]
        rw [hLHS]
        congr 1
        exact ihf (p + 1) (m :: M') (by omega) hsort
          (by
            intro x hx
            rcases List.mem_cons.mp hx with rfl | hx'
            · omega
            · have h1 := (List.pairwise_cons.mp hsort).1 x hx'
              omega)
          hocc hbounds
          (fun q hq hraw => hcover q (by omega) hraw)

/-- C3.  Running `multi_replace` with exactly the two literal rules
`(a, b)` and `(b, a)` — `a`, `b` nonempty literals none of whose occurrences
in the input overlap each other — yields the input with every
non-overlapping occurrence of `a` replaced by `b` and every non-overlapping
occurrence of `b` replaced by `a`, simultaneously and with no cascading:
the output of the engine equals the greedy left-to-right simultaneous swap
described by the spec (`spec_swap`). -/
theorem multi_replace_swap (a b input : List Byte) (ha : a ≠ []) (hb : b ≠ [])
    (hdisj : swap_disjoint a b input) :
    (multi_replace input [⟨a, b⟩, ⟨b, a⟩]).1 = spec_swap a b input := by
  have hlena : 1 ≤ a.length := by
    rcases a with _ | _
    · exact absurd rfl ha
    · simp
  have hlenb : 1 ≤ b.length := by
    rcases b with _ | _
    · exact absurd rfl hb
    · simp
  have hqlt : ∀ (pat : List Byte), pat ≠ [] → ∀ q,
      pat.isPrefixOf (input.drop q) = true → q + pat.length ≤ input.length := by
    intro pat hpat q hq
    have := (List.isPrefixOf_iff_prefix.mp hq).length_le
    rw [List.length_drop] at this
    by_cases hql : q ≤ input.length
    · omega
    · rw [List.drop_eq_nil_of_le (by omega)] at hq
      rcases pat with _ | _
      · exact absurd rfl hpat
      · simp [List.isPrefixOf] at hq
  have hexcl : ∀ q, a.isPrefixOf (input.drop q) = true →
      b.isPrefixOf (input.drop q) = true → False := by
    intro q hqa hqb
    have h1 := hqlt a ha q hqa
    have h2 := hqlt b hb q hqb
    have hql : q < input.length := by omega
    rcases hdisj q hql q hql hqa hqb with h | h <;> omega
  have hpos : ∀ m ∈ collect_matches input [⟨a, b⟩, ⟨b, a⟩], m.s < m.e := by
    refine collect_matches_pos input _ ?_
    intro r hr
    rcases List.mem_cons.mp hr with rfl | hr
    · exact ha
    rcases List.mem_cons.mp hr with rfl | hr
    · exact hb
    · cases hr
  have hpw := swap_cands_pairwise a b input ha hb hdisj
  have hmem_iff : ∀ m, m ∈ sort_drop_overlaps (collect_matches input [⟨a, b⟩, ⟨b, a⟩]) ↔
      m ∈ collect_matches input [⟨a, b⟩, ⟨b, a⟩] := by
    intro m
    constructor
    · exact sort_drop_overlaps_subset _ m
    · intro hm
      exact resolver_keeps_all _ [] (by simpa using hpw) m (by simpa using hm)
  have hsorted := sort_drop_overlaps_disjoint _ hpos
  have hocc : ∀ m ∈ sort_drop_overlaps (collect_matches input [⟨a, b⟩, ⟨b, a⟩]),
      (m.e = m.s + a.length ∧ a.isPrefixOf (input.drop m.s) = true ∧ m.repl = b) ∨
      (m.e = m.s + b.length ∧ b.isPrefixOf (input.drop m.s) = true ∧ m.repl = a) := by
    intro m hm
    have hm' := (hmem_iff m).mp hm
    rw [collect_swap] at hm'
    rcases List.mem_append.mp hm' with h | h
    · rcases List.mem_map.mp h with ⟨pr, hpr, rfl⟩
      rcases finditer_aux_bounds a input _ _ pr hpr with ⟨_, he, _, hpre⟩
      exact Or.inl ⟨he, hpre, rfl⟩
    · rcases List.mem_map.mp h with ⟨pr, hpr, rfl⟩
      rcases finditer_aux_bounds b input _ _ pr hpr with ⟨_, he, _, hpre⟩
      exact Or.inr ⟨he, hpre, rfl⟩
  have hbounds : ∀ m ∈ sort_drop_overlaps (collect_matches input [⟨a, b⟩, ⟨b, a⟩]),
      m.s < m.e ∧ m.e ≤ input.length := by
    intro m hm
    have hm' := (hmem_iff m).mp hm
    exact ⟨hpos m hm', (collect_matches_bounds input _ m hm').2⟩
  have hcover : ∀ q, 0 ≤ q →
      (a.isPrefixOf (input.drop q) = true ∨ b.isPrefixOf (input.drop q) = true) →
      ∃ m ∈ sort_drop_overlaps (collect_matches input [⟨a, b⟩, ⟨b, a⟩]),
        m.s ≤ q ∧ q < m.e := by
    intro q _ hraw
    rcases hraw with hraw | hraw
    · rcases finditer_cover a input ha q hraw with ⟨pr, hpr, h1, h2⟩
      refine ⟨⟨pr.1, pr.2, b⟩, ?_, h1, h2⟩
      rw [hmem_iff, collect_swap]
      exact List.mem_append.mpr (Or.inl (List.mem_map.mpr ⟨pr, hpr, rfl⟩))
    · rcases finditer_cover b input hb q hraw with ⟨pr, hpr, h1, h2⟩
      refine ⟨⟨pr.1, pr.2, a⟩, ?_, h1, h2⟩
      rw [hmem_iff, collect_swap]
      exact List.mem_append.mpr (Or.inr (List.mem_map.mpr ⟨pr, hpr, rfl⟩))
  have hmain := splice_eq_spec_swap a b input ha hb hexcl (input.length + 1) 0
    (sort_drop_overlaps (collect_matches input [⟨a, b⟩, ⟨b, a⟩]))
    (by omega) hsorted (fun m _ => Nat.zero_le _) hocc hbounds
    (fun q hq hraw => hcover q hq hraw)
  rw [List.drop_zero] at hmain
  exact hmain

theorem multi_replace_swap_witness :
    (([97, 98] : List Byte) ≠ [] ∧ ([99, 100] : List Byte) ≠ [] ∧
      swap_disjoint [97, 98] [99, 100] [97, 98, 120, 99, 100]) ∧
    (multi_replace [97, 98, 120, 99, 100]
        [⟨[97, 98], [99, 100]⟩, ⟨[99, 100], [97, 98]⟩]).1 =
      spec_swap [97, 98] [99, 100] [97, 98, 120, 99, 100] :=
  ⟨by refine ⟨by decide, by decide, by decide⟩,
    multi_replace_swap [97, 98] [99, 100] [97, 98, 120, 99, 100]
      (by decide) (by decide) (by decide)⟩

end Repren
